import Mathlib

/-!
A shallow embedding of the `Scheduler` class of `src/scheduler.py`.

Modelling choices, faithful to the source:
* The Python function `now()` (wall-clock milliseconds) is modelled by an explicit
  clock `clock : Nat → Int` together with a tick counter stored in the
  state; every call the Python code makes to `now()` consumes one tick,
  so time may advance arbitrarily between consecutive reads.  Reads are
  performed exactly where (and only where) the Python code calls
  `now()`, respecting the short-circuit evaluation of the Python `and`.
* User callbacks are abstract: an invocation is recorded as a `Call`
  value (the current event number, the stored function identifier and
  the argument bundles read from the parameter list of this call).  A
  predicate `fails : Call → Bool` says which invocations raise an
  exception; a raising invocation aborts `_update` at exactly the point
  the Python exception would propagate, carrying the state at that
  point.
* Python tuple indexing `params[i]` (which supports negative indices
  and raises `IndexError` when out of range) is `pyIndex`; an
  `IndexError` escaping `_update` is the `ixError` result.
* Machine integers do not overflow in Python, so times and delays are
  plain `Int` and event counters are `Int`.
-/

namespace Scheduler

/-- One event tuple `(predelay, condition, postdelay, func, args_tuple,
kwargs_dict)` as passed to `Scheduler.update`.  The function and the
argument bundles are abstract values represented by identifiers. -/
structure Event where
  predelay : Int
  condition : Bool
  postdelay : Int
  func : Nat
  args : Nat
  kwargs : Nat
deriving Repr, DecidableEq

/-- A record of one user-callback invocation `self._func(*args, **kwargs)`:
the event number current at the moment of invocation, the stored function
identifier, and the argument bundles read from the parameters of this call. -/
structure Call where
  idx : Int
  func : Nat
  args : Nat
  kwargs : Nat
deriving Repr, DecidableEq

/-- The mutable instance attributes of a `Scheduler` object, together
with the tick counter of the modelled clock.  The attributes
`_start_time`, `_predelay`, `_postdelay`, `_func` and `_condition` do
not exist in Python until first assigned; they are given inert default
values here and the code never reads them before assigning them. -/
structure SchedState where
  event_num : Int
  predelay_finished : Bool
  postdelay_finished : Bool
  condition_met : Bool
  is_last : Bool
  all_finished : Bool
  start_time : Int
  predelay : Int
  postdelay : Int
  func : Nat
  condition : Bool
  tick : Nat
deriving Repr, DecidableEq

/-- The state built by `Scheduler.__init__`. -/
def initState : SchedState :=
  { event_num := -1
    predelay_finished := false
    postdelay_finished := false
    condition_met := false
    is_last := false
    all_finished := false
    start_time := 0
    predelay := 0
    postdelay := 0
    func := 0
    condition := false
    tick := 0 }

/-- One call to `now()`: read the clock at the current tick and advance
the tick counter. -/
def readNow (clock : Nat → Int) (s : SchedState) : Int × SchedState :=
  (clock s.tick, { s with tick := s.tick + 1 })

/-- Python tuple indexing `l[i]`: supports negative indices from the
end; `none` models an `IndexError`. -/
def pyIndex (l : List Event) (i : Int) : Option Event :=
  let j : Int := if i < 0 then (l.length : Int) + i else i
  if 0 ≤ j then l[j.toNat]? else none

/-- `Scheduler._get_next`: increments `_event_num`, reads
`params[_event_num]`, sets `_is_last` when on the final event, and
returns `(predelay, postdelay, func)` together with the updated state. -/
def _get_next (params : List Event) (s : SchedState) :
    Option ((Int × Int × Nat) × SchedState) :=
  let s1 := { s with event_num := s.event_num + 1 }
  match pyIndex params s1.event_num with
  | none => none
  | some e =>
      let s2 := if s1.event_num = (params.length : Int) - 1 then
                  { s1 with is_last := true } else s1
      some ((e.predelay, e.postdelay, e.func), s2)

/-- `Scheduler._get_condition`: reads `params[_event_num][1]`. -/
def _get_condition (params : List Event) (s : SchedState) : Option Bool :=
  (pyIndex params s.event_num).map Event.condition

/-- `Scheduler._get_args_kwargs`: reads `params[_event_num][4]` and
`params[_event_num][5]`. -/
def _get_args_kwargs (params : List Event) (s : SchedState) :
    Option (Nat × Nat) :=
  (pyIndex params s.event_num).map (fun e => (e.args, e.kwargs))

/-- Lines 85-90 of `_update`: on the first call (`_event_num == -1`),
record `_start_time = now()` and fetch the first event. -/
def phaseFirst (clock : Nat → Int) (params : List Event) (s : SchedState) :
    Option SchedState :=
  if s.event_num = -1 then
    let p := readNow clock s
    let s1 := { p.2 with start_time := p.1 }
    match _get_next params s1 with
    | none => none
    | some (dpf, s2) =>
        some { s2 with predelay := dpf.1, postdelay := dpf.2.1, func := dpf.2.2 }
  else some s

/-- Lines 92-98 of `_update`: if the predelay is still pending and
`now() - _start_time >= _predelay`, mark it finished.  `now()` is only
read when the first conjunct holds (Python short-circuit). -/
def phasePre (clock : Nat → Int) (s : SchedState) : SchedState :=
  if s.predelay_finished then s
  else
    let p := readNow clock s
    if p.2.predelay ≤ p.1 - p.2.start_time then
      { p.2 with predelay_finished := true }
    else p.2

/-- Lines 100-102 of `_update`: while awaiting the condition, re-read
its most up-to-date value from the parameters of this call. -/
def phaseCond (params : List Event) (s : SchedState) : Option SchedState :=
  if s.predelay_finished && !s.condition_met then
    match _get_condition params s with
    | none => none
    | some c => some { s with condition := c }
  else some s

/-- Lines 104-109 of `_update`: when the freshly sampled condition is
true, restart the timer (`_start_time = now()`) and latch
`_condition_met`. -/
def phaseCondMet (clock : Nat → Int) (s : SchedState) : SchedState :=
  if s.predelay_finished && !s.condition_met && s.condition then
    let p := readNow clock s
    { p.2 with start_time := p.1, condition_met := true }
  else s

/-- Result of the private `_update` method: normal return, a user
callback raising (with the state at the moment the exception
propagates), or an `IndexError` from `params[...]`. -/
inductive UpdResult where
  | ok (s : SchedState) (inv : Option Call)
  | raised (s : SchedState) (c : Call)
  | ixError
deriving Repr, DecidableEq

/-- Lines 111-138 of `_update`: when the predelay is finished, the
condition met and the postdelay pending, read `now()`; if the postdelay
has elapsed, mark it finished, read the fresh args/kwargs, invoke the
user function, and either finish (last event) or reset the phase flags
and fetch the next event. -/
def phasePost (fails : Call → Bool) (clock : Nat → Int) (params : List Event)
    (s : SchedState) : UpdResult :=
  if s.predelay_finished && s.condition_met && !s.postdelay_finished then
    let p := readNow clock s
    if p.2.postdelay ≤ p.1 - p.2.start_time then
      let s1 := { p.2 with postdelay_finished := true }
      match _get_args_kwargs params s1 with
      | none => UpdResult.ixError
      | some ak =>
          let c : Call := ⟨s1.event_num, s1.func, ak.1, ak.2⟩
          if fails c then UpdResult.raised s1 c
          else if s1.is_last then
            UpdResult.ok { s1 with all_finished := true } (some c)
          else
            let q := readNow clock s1
            let s2 := { q.2 with
                        start_time := q.1
                        predelay_finished := false
                        postdelay_finished := false
                        condition_met := false }
            match _get_next params s2 with
            | none => UpdResult.ixError
            | some (dpf, s3) =>
                UpdResult.ok
                  { s3 with
                    predelay := dpf.1
                    postdelay := dpf.2.1
                    func := dpf.2.2 } (some c)
    else UpdResult.ok p.2 none
  else UpdResult.ok s none

/-- `Scheduler._update`: the four phase blocks run in sequence on the
shared mutable state. -/
def _update (fails : Call → Bool) (clock : Nat → Int) (params : List Event)
    (s : SchedState) : UpdResult :=
  match phaseFirst clock params s with
  | none => UpdResult.ixError
  | some s1 =>
      match phaseCond params (phasePre clock s1) with
      | none => UpdResult.ixError
      | some s2 => phasePost fails clock params (phaseCondMet clock s2)

/-- Result of the public `update` method: a boolean return value (with
the resulting state and the at-most-one invocation performed), or a
propagating exception. -/
inductive StepResult where
  | ret (s : SchedState) (inv : Option Call) (b : Bool)
  | raised (s : SchedState) (c : Call)
  | ixError
deriving Repr, DecidableEq

/-- `Scheduler.update`: returns `True` immediately when called with no
params or when all events have finished; otherwise runs `_update` and
returns `False`. -/
def update (fails : Call → Bool) (clock : Nat → Int) (params : List Event)
    (s : SchedState) : StepResult :=
  if params.isEmpty || s.all_finished then StepResult.ret s none true
  else
    match _update fails clock params s with
    | UpdResult.ok s1 inv => StepResult.ret s1 inv false
    | UpdResult.raised s1 c => StepResult.raised s1 c
    | UpdResult.ixError => StepResult.ixError

/-- A whole driver run: the outcome of calling `update` once per element
of `inputs`, threading the state, recording for each completed call its
return value and its invocation (if any). -/
inductive RunOut where
  | ok (s : SchedState) (outs : List (Bool × Option Call))
  | raised (s : SchedState) (outs : List (Bool × Option Call)) (c : Call)
  | ixError (outs : List (Bool × Option Call))
deriving Repr, DecidableEq

/-- Drive the scheduler with one `update` call per element of `inputs`.
A raising callback or an `IndexError` stops the run there. -/
def run (fails : Call → Bool) (clock : Nat → Int)
    (inputs : List (List Event)) (s : SchedState) : RunOut :=
  match inputs with
  | [] => RunOut.ok s []
  | p :: rest =>
      match update fails clock p s with
      | StepResult.ret s1 inv b =>
          match run fails clock rest s1 with
          | RunOut.ok s2 outs => RunOut.ok s2 ((b, inv) :: outs)
          | RunOut.raised s2 outs c => RunOut.raised s2 ((b, inv) :: outs) c
          | RunOut.ixError outs => RunOut.ixError ((b, inv) :: outs)
      | StepResult.raised s1 c => RunOut.raised s1 [] c
      | StepResult.ixError => RunOut.ixError []

/-- The return value of an `update` call, when it returned normally. -/
def StepResult.retBool : StepResult → Option Bool
  | StepResult.ret _ _ b => some b
  | _ => none

/-- The invocation performed during an `update` call, if any (a raising
invocation still happened). -/
def StepResult.invOf : StepResult → Option Call
  | StepResult.ret _ inv _ => inv
  | StepResult.raised _ c => some c
  | StepResult.ixError => none

/-- The invocations of a completed run, in order. -/
def RunOut.calls : RunOut → List Call
  | RunOut.ok _ outs => outs.filterMap Prod.snd
  | RunOut.raised _ outs c => outs.filterMap Prod.snd ++ [c]
  | RunOut.ixError outs => outs.filterMap Prod.snd

/-- `consecFromB k cs` holds when the invocation records `cs` carry the
consecutive event numbers `k, k+1, k+2, …`. -/
def consecFromB (k : Int) : List Call → Bool
  | [] => true
  | c :: cs => decide (c.idx = k) && consecFromB (k + 1) cs

/-- The event index the scheduler will invoke next (the current event,
or event `0` before the first call, or one past the last invocation). -/
def curIdx (s : SchedState) : Int :=
  if s.postdelay_finished then s.event_num + 1
  else if s.event_num = -1 then 0 else s.event_num

/-- The start time the pending predelay of the current event is measured
against: recorded on the first call, otherwise the stored one. -/
def baseStart (clock : Nat → Int) (s : SchedState) : Int :=
  if s.event_num = -1 then clock s.tick else s.start_time

/- ### Transport lemmas for the phase blocks -/

theorem update_empty (f : Call → Bool) (clock : Nat → Int) (s : SchedState) :
    update f clock [] s = StepResult.ret s none true := by
  simp [update]

theorem update_finished (f : Call → Bool) (clock : Nat → Int)
    (p : List Event) (s : SchedState) (h : s.all_finished = true) :
    update f clock p s = StepResult.ret s none true := by
  simp [update, h]

theorem update_ret_true {f : Call → Bool} {clock : Nat → Int}
    {p : List Event} {s s1 : SchedState} {inv : Option Call}
    (h : update f clock p s = StepResult.ret s1 inv true) :
    s1 = s ∧ inv = none ∧ (p = [] ∨ s.all_finished = true) := by
  unfold update at h
  split at h
  · rename_i hg
    cases h
    rcases Bool.or_eq_true_iff.mp hg with hp | ha
    · exact ⟨rfl, rfl, Or.inl (List.isEmpty_iff.mp hp)⟩
    · exact ⟨rfl, rfl, Or.inr ha⟩
  · split at h <;> cases h

theorem update_ret_false {f : Call → Bool} {clock : Nat → Int}
    {p : List Event} {s s1 : SchedState} {inv : Option Call}
    (h : update f clock p s = StepResult.ret s1 inv false) :
    p ≠ [] ∧ s.all_finished = false ∧ _update f clock p s = UpdResult.ok s1 inv := by
  unfold update at h
  split at h
  · cases h
  · rename_i hg
    rw [Bool.or_eq_true_iff, not_or] at hg
    refine ⟨fun he => hg.1 (by simp [he]), by simpa using hg.2, ?_⟩
    split at h <;> cases h
    assumption

theorem update_raised_inv {f : Call → Bool} {clock : Nat → Int}
    {p : List Event} {s s1 : SchedState} {cc : Call}
    (h : update f clock p s = StepResult.raised s1 cc) :
    p ≠ [] ∧ s.all_finished = false ∧
      _update f clock p s = UpdResult.raised s1 cc := by
  unfold update at h
  split at h
  · cases h
  · rename_i hg
    rw [Bool.or_eq_true_iff, not_or] at hg
    refine ⟨fun he => hg.1 (by simp [he]), by simpa using hg.2, ?_⟩
    split at h <;> cases h
    assumption

theorem update_of_ok {f : Call → Bool} {clock : Nat → Int}
    {p : List Event} {s s1 : SchedState} {inv : Option Call}
    (hp : p ≠ []) (ha : s.all_finished = false)
    (h : _update f clock p s = UpdResult.ok s1 inv) :
    update f clock p s = StepResult.ret s1 inv false := by
  unfold update
  rw [if_neg (by simp [ha, hp]), h]

theorem phaseFirst_of_ne {clock : Nat → Int} {p : List Event}
    {s : SchedState} (h : s.event_num ≠ -1) :
    phaseFirst clock p s = some s := by
  simp [phaseFirst, h]

theorem phaseFirst_of_eq {clock : Nat → Int} {p : List Event}
    {s : SchedState} {e : Event} (h : s.event_num = -1)
    (he : pyIndex p 0 = some e) :
    phaseFirst clock p s =
      some { s with
             tick := s.tick + 1
             start_time := clock s.tick
             event_num := 0
             is_last := if (0 : Int) = (p.length : Int) - 1 then true else s.is_last
             predelay := e.predelay
             postdelay := e.postdelay
             func := e.func } := by
  have h0 : (-1 : Int) + 1 = 0 := by norm_num
  simp only [phaseFirst, readNow, _get_next, h, if_pos rfl, h0, he]
  by_cases hl : (0 : Int) = (p.length : Int) - 1 <;> simp [hl]

theorem phaseFirst_none {clock : Nat → Int} {p : List Event}
    {s : SchedState} (h : phaseFirst clock p s = none) :
    s.event_num = -1 ∧ pyIndex p 0 = none := by
  unfold phaseFirst at h
  split at h
  · rename_i he
    simp only [readNow, _get_next, he] at h
    have : (-1 : Int) + 1 = 0 := by norm_num
    simp only [this] at h
    constructor
    · exact he
    · cases hpy : pyIndex p 0 <;> simp [hpy] at h
      rfl
  · cases h

theorem phasePre_proj (clock : Nat → Int) (s : SchedState) :
    (phasePre clock s).event_num = s.event_num ∧
    (phasePre clock s).postdelay_finished = s.postdelay_finished ∧
    (phasePre clock s).condition_met = s.condition_met ∧
    (phasePre clock s).all_finished = s.all_finished ∧
    (phasePre clock s).is_last = s.is_last ∧
    (phasePre clock s).start_time = s.start_time ∧
    (phasePre clock s).predelay = s.predelay ∧
    (phasePre clock s).postdelay = s.postdelay ∧
    (phasePre clock s).func = s.func ∧
    (phasePre clock s).condition = s.condition := by
  unfold phasePre readNow
  by_cases h1 : s.predelay_finished <;>
    by_cases h2 : s.predelay ≤ clock s.tick - s.start_time <;> simp [h1, h2]

theorem phasePre_pf (clock : Nat → Int) (s : SchedState) :
    (phasePre clock s).predelay_finished =
      (s.predelay_finished || decide (s.predelay ≤ clock s.tick - s.start_time)) := by
  unfold phasePre readNow
  by_cases h1 : s.predelay_finished <;>
    by_cases h2 : s.predelay ≤ clock s.tick - s.start_time <;> simp [h1, h2]

theorem phaseCond_proj {p : List Event} {s t : SchedState}
    (h : phaseCond p s = some t) :
    t.event_num = s.event_num ∧
    t.predelay_finished = s.predelay_finished ∧
    t.condition_met = s.condition_met ∧
    t.postdelay_finished = s.postdelay_finished ∧
    t.all_finished = s.all_finished ∧
    t.is_last = s.is_last ∧
    t.start_time = s.start_time ∧
    t.predelay = s.predelay ∧
    t.postdelay = s.postdelay ∧
    t.func = s.func ∧
    t.tick = s.tick := by
  unfold phaseCond _get_condition at h
  split at h
  · cases hpy : pyIndex p s.event_num <;> simp [hpy] at h
    cases h
    simp
  · cases h
    simp

theorem phaseCond_cond {p : List Event} {s t : SchedState}
    (h : phaseCond p s = some t) :
    (t.condition = s.condition ∧ (s.predelay_finished && !s.condition_met) = false) ∨
    ((s.predelay_finished && !s.condition_met) = true ∧
      ∃ e, pyIndex p s.event_num = some e ∧ t.condition = e.condition) := by
  unfold phaseCond _get_condition at h
  split at h
  · rename_i hg
    cases hpy : pyIndex p s.event_num <;> simp [hpy] at h
    right
    refine ⟨hg, _, rfl, ?_⟩
    cases h
    simp
  · rename_i hg
    cases h
    exact Or.inl ⟨rfl, by simpa using hg⟩

theorem phaseCond_none {p : List Event} {s : SchedState}
    (h : phaseCond p s = none) :
    (s.predelay_finished && !s.condition_met) = true ∧
      pyIndex p s.event_num = none := by
  unfold phaseCond _get_condition at h
  split at h
  · rename_i hg
    cases hpy : pyIndex p s.event_num <;> simp [hpy] at h
    exact ⟨hg, by simp [hpy]⟩
  · cases h

theorem phaseCondMet_proj (clock : Nat → Int) (s : SchedState) :
    (phaseCondMet clock s).event_num = s.event_num ∧
    (phaseCondMet clock s).predelay_finished = s.predelay_finished ∧
    (phaseCondMet clock s).postdelay_finished = s.postdelay_finished ∧
    (phaseCondMet clock s).all_finished = s.all_finished ∧
    (phaseCondMet clock s).is_last = s.is_last ∧
    (phaseCondMet clock s).predelay = s.predelay ∧
    (phaseCondMet clock s).postdelay = s.postdelay ∧
    (phaseCondMet clock s).func = s.func ∧
    (phaseCondMet clock s).condition = s.condition := by
  unfold phaseCondMet readNow
  split <;> simp

theorem phaseCondMet_cm (clock : Nat → Int) (s : SchedState) :
    (phaseCondMet clock s).condition_met =
      (s.condition_met || (s.predelay_finished && !s.condition_met && s.condition)) := by
  unfold phaseCondMet readNow
  split <;> rename_i hg
  · simp [hg]
  · simp only [Bool.not_eq_true] at hg
    rw [hg]
    cases hc : s.condition_met <;> simp

theorem phaseCondMet_st (clock : Nat → Int) (s : SchedState) :
    (phaseCondMet clock s).start_time =
      if (s.predelay_finished && !s.condition_met && s.condition) = true then
        clock s.tick else s.start_time := by
  unfold phaseCondMet readNow
  split <;> rename_i hg <;> simp [hg]

/- ### Indexing lemmas -/

theorem pyIndex_nonneg {p : List Event} {i : Int} (h : 0 ≤ i) :
    pyIndex p i = p[i.toNat]? := by
  simp [pyIndex, not_lt.mpr h, h]

theorem pyIndex_zero {p : List Event} (h : p ≠ []) :
    ∃ e, pyIndex p 0 = some e := by
  rw [pyIndex_nonneg le_rfl]
  cases p with
  | nil => exact absurd rfl h
  | cons a l => exact ⟨a, by simp⟩

theorem pyIndex_some_of_lt {p : List Event} {i : Int} (h0 : 0 ≤ i)
    (h1 : i < (p.length : Int)) : ∃ e, pyIndex p i = some e := by
  rw [pyIndex_nonneg h0]
  have : i.toNat < p.length := by omega
  rcases List.getElem?_eq_getElem this with h
  exact ⟨_, h⟩

/- ### The state reaching the post-delay block -/

/-- The state after line 122 of `_update` (post-delay marked finished),
just before the user callback is invoked. -/
def fireState (s : SchedState) : SchedState :=
  { s with tick := s.tick + 1, postdelay_finished := true }

/-- The invocation record produced at line 125 of `_update`. -/
def fireCall (s : SchedState) (e : Event) : Call :=
  ⟨s.event_num, s.func, e.args, e.kwargs⟩

/-- The state after lines 134-138 of `_update`: timer restarted, phase
flags reset, next event fetched. -/
def advState (clock : Nat → Int) (p : List Event) (s : SchedState)
    (e2 : Event) : SchedState :=
  { s with
    tick := s.tick + 2
    start_time := clock (s.tick + 1)
    predelay_finished := false
    postdelay_finished := false
    condition_met := false
    event_num := s.event_num + 1
    is_last := if s.event_num + 1 = (p.length : Int) - 1 then true else s.is_last
    predelay := e2.predelay
    postdelay := e2.postdelay
    func := e2.func }

/-- The guard of the post-delay block (line 111-114). -/
def postGuard (s : SchedState) : Prop :=
  s.predelay_finished = true ∧ s.condition_met = true ∧
    s.postdelay_finished = false

theorem postGuard_bool {s : SchedState} (h : postGuard s) :
    (s.predelay_finished && s.condition_met && !s.postdelay_finished) = true := by
  rcases h with ⟨h1, h2, h3⟩
  simp [h1, h2, h3]

theorem postGuard_bool_neg {s : SchedState} (h : ¬ postGuard s) :
    (s.predelay_finished && s.condition_met && !s.postdelay_finished) = false := by
  by_cases h1 : s.predelay_finished = true
  · by_cases h2 : s.condition_met = true
    · by_cases h3 : s.postdelay_finished = false
      · exact absurd ⟨h1, h2, h3⟩ h
      · rw [Bool.not_eq_false] at h3
        simp [h3]
    · rw [Bool.not_eq_true] at h2
      simp [h2]
  · rw [Bool.not_eq_true] at h1
    simp [h1]

/-- Full case analysis of the post-delay block. -/
theorem phasePost_cases (fails : Call → Bool) (clock : Nat → Int)
    (p : List Event) (s : SchedState) :
    (¬ postGuard s ∧ phasePost fails clock p s = UpdResult.ok s none) ∨
    (postGuard s ∧ ¬ (s.postdelay ≤ clock s.tick - s.start_time) ∧
      phasePost fails clock p s = UpdResult.ok { s with tick := s.tick + 1 } none) ∨
    (postGuard s ∧ s.postdelay ≤ clock s.tick - s.start_time ∧
      pyIndex p s.event_num = none ∧
      phasePost fails clock p s = UpdResult.ixError) ∨
    (∃ e, postGuard s ∧ s.postdelay ≤ clock s.tick - s.start_time ∧
      pyIndex p s.event_num = some e ∧
      ((fails (fireCall s e) = true ∧
         phasePost fails clock p s = UpdResult.raised (fireState s) (fireCall s e)) ∨
       (fails (fireCall s e) = false ∧ s.is_last = true ∧
         phasePost fails clock p s =
           UpdResult.ok { fireState s with all_finished := true } (some (fireCall s e))) ∨
       (fails (fireCall s e) = false ∧ s.is_last = false ∧
         pyIndex p (s.event_num + 1) = none ∧
         phasePost fails clock p s = UpdResult.ixError) ∨
       (∃ e2, fails (fireCall s e) = false ∧ s.is_last = false ∧
         pyIndex p (s.event_num + 1) = some e2 ∧
         phasePost fails clock p s =
           UpdResult.ok (advState clock p s e2) (some (fireCall s e))))) := by
  by_cases hg : postGuard s
  · by_cases ht : s.postdelay ≤ clock s.tick - s.start_time
    · cases hpy : pyIndex p s.event_num with
      | none =>
          refine Or.inr (Or.inr (Or.inl ⟨hg, ht, rfl, ?_⟩))
          simp [phasePost, readNow, postGuard_bool hg, ht, _get_args_kwargs, hpy]
      | some e =>
          refine Or.inr (Or.inr (Or.inr ⟨e, hg, ht, rfl, ?_⟩))
          by_cases hf : fails (fireCall s e) = true
          · refine Or.inl ⟨hf, ?_⟩
            simp [phasePost, readNow, postGuard_bool hg, ht, _get_args_kwargs,
              hpy, fireCall, fireState] at hf ⊢
            simp [hf]
          · rw [Bool.not_eq_true] at hf
            by_cases hl : s.is_last = true
            · refine Or.inr (Or.inl ⟨hf, hl, ?_⟩)
              simp [phasePost, readNow, postGuard_bool hg, ht, _get_args_kwargs,
                hpy, fireCall, fireState] at hf ⊢
              simp [hf, hl]
            · rw [Bool.not_eq_true] at hl
              cases hpy2 : pyIndex p (s.event_num + 1) with
              | none =>
                  refine Or.inr (Or.inr (Or.inl ⟨hf, hl, rfl, ?_⟩))
                  simp only [phasePost, readNow, postGuard_bool hg, if_pos ht,
                    _get_args_kwargs, _get_next, fireCall, fireState] at hf ⊢
                  simp [hf, hl, hpy, hpy2, ht]
              | some e2 =>
                  refine Or.inr (Or.inr (Or.inr ⟨e2, hf, hl, rfl, ?_⟩))
                  simp only [phasePost, readNow, postGuard_bool hg,
                    _get_args_kwargs, _get_next, fireCall, fireState, advState] at hf ⊢
                  simp [hf, hl, hpy, hpy2, ht]
                  by_cases hL : s.event_num + 1 = (p.length : Int) - 1 <;> simp [hL]
    · refine Or.inr (Or.inl ⟨hg, ht, ?_⟩)
      simp [phasePost, readNow, postGuard_bool hg, ht]
  · refine Or.inl ⟨hg, ?_⟩
    simp [phasePost, postGuard_bool_neg hg]

/-- `phaseFirst` fails only on the very first call with an empty list. -/
theorem phaseFirst_none_of {clock : Nat → Int} {p : List Event}
    {s : SchedState} (h : s.event_num = -1) (hpy : pyIndex p 0 = none) :
    phaseFirst clock p s = none := by
  have h0 : (-1 : Int) + 1 = 0 := by norm_num
  simp [phaseFirst, readNow, _get_next, h, h0, hpy]

theorem phaseFirst_evn {clock : Nat → Int} {p : List Event}
    {s t0 : SchedState} (h : phaseFirst clock p s = some t0) :
    t0.event_num = if s.event_num = -1 then 0 else s.event_num := by
  by_cases hfe : s.event_num = -1
  · cases hpy : pyIndex p 0 with
    | none => rw [phaseFirst_none_of hfe hpy] at h; cases h
    | some e0 => rw [phaseFirst_of_eq hfe hpy] at h; cases h; simp [hfe]
  · rw [phaseFirst_of_ne hfe] at h; cases h; simp [hfe]

/-- How the state `t` that reaches the post-delay block of `_update`
relates to the state `s` the call started from: what the first-call
block, the predelay check, the condition sampling and the
condition-latch did. -/
structure Mid (clock : Nat → Int) (p : List Event) (s t : SchedState) : Prop where
  evn : t.event_num = if s.event_num = -1 then 0 else s.event_num
  postf : t.postdelay_finished = s.postdelay_finished
  allf : t.all_finished = s.all_finished
  lastc : t.is_last =
    if s.event_num = -1 ∧ (0 : Int) = (p.length : Int) - 1 then true else s.is_last
  dpf : if s.event_num = -1 then
          ∃ e0, pyIndex p 0 = some e0 ∧ t.predelay = e0.predelay ∧
            t.postdelay = e0.postdelay ∧ t.func = e0.func
        else t.predelay = s.predelay ∧ t.postdelay = s.postdelay ∧ t.func = s.func
  cm_mono : s.condition_met = true → t.condition_met = true
  cm_new : t.condition_met = true → s.condition_met = true ∨
    (t.predelay_finished = true ∧
      ∃ e, pyIndex p t.event_num = some e ∧ e.condition = true)
  pf_mono : s.predelay_finished = true → t.predelay_finished = true
  pf_new : t.predelay_finished = true → s.predelay_finished = true ∨
    ∃ x, t.predelay ≤ clock x - baseStart clock s
  stc : t.start_time = baseStart clock s ∨ ∃ x, t.start_time = clock x

/-- The state reaching the post-delay block satisfies `Mid`. -/
theorem mid_spec {clock : Nat → Int} {p : List Event} {s t0 t2 : SchedState}
    (h0 : phaseFirst clock p s = some t0)
    (h2 : phaseCond p (phasePre clock t0) = some t2) :
    Mid clock p s (phaseCondMet clock t2) := by
  obtain ⟨p1e, p1po, p1cm, p1af, p1la, p1st, p1pd, p1pod, p1fn, p1cd⟩ :=
    phasePre_proj clock t0
  have p1pf := phasePre_pf clock t0
  obtain ⟨c1e, c1pf, c1cm, c1po, c1af, c1la, c1st, c1pd, c1pod, c1fn, c1tk⟩ :=
    phaseCond_proj h2
  obtain ⟨m1e, m1pf, m1po, m1af, m1la, m1pd, m1pod, m1fn, m1cd⟩ :=
    phaseCondMet_proj clock t2
  have m1cm := phaseCondMet_cm clock t2
  have m1st := phaseCondMet_st clock t2
  have Ce : (phaseCondMet clock t2).event_num = t0.event_num := by
    rw [m1e, c1e, p1e]
  have Cpo : (phaseCondMet clock t2).postdelay_finished = t0.postdelay_finished := by
    rw [m1po, c1po, p1po]
  have Caf : (phaseCondMet clock t2).all_finished = t0.all_finished := by
    rw [m1af, c1af, p1af]
  have Cla : (phaseCondMet clock t2).is_last = t0.is_last := by
    rw [m1la, c1la, p1la]
  have Cpd : (phaseCondMet clock t2).predelay = t0.predelay := by
    rw [m1pd, c1pd, p1pd]
  have Cpod : (phaseCondMet clock t2).postdelay = t0.postdelay := by
    rw [m1pod, c1pod, p1pod]
  have Cfn : (phaseCondMet clock t2).func = t0.func := by
    rw [m1fn, c1fn, p1fn]
  have Cpf : (phaseCondMet clock t2).predelay_finished =
      (t0.predelay_finished || decide (t0.predelay ≤ clock t0.tick - t0.start_time)) := by
    rw [m1pf, c1pf, p1pf]
  have Ccm2 : t2.condition_met = t0.condition_met := by rw [c1cm, p1cm]
  have Cpf2 : t2.predelay_finished =
      (t0.predelay_finished || decide (t0.predelay ≤ clock t0.tick - t0.start_time)) := by
    rw [c1pf, p1pf]
  have Cst2 : t2.start_time = t0.start_time := by rw [c1st, p1st]
  by_cases hfe : s.event_num = -1
  · cases hpy : pyIndex p 0 with
    | none => rw [phaseFirst_none_of hfe hpy] at h0; cases h0
    | some e0 =>
        rw [phaseFirst_of_eq hfe hpy] at h0
        cases h0
        refine ⟨?_, ?_, ?_, ?_, ?_, ?_, ?_, ?_, ?_, ?_⟩
        · rw [Ce]; simp [hfe]
        · rw [Cpo]
        · rw [Caf]
        · rw [Cla]; simp [hfe]
        · rw [if_pos hfe]
          exact ⟨e0, hpy, by rw [Cpd], by rw [Cpod], by rw [Cfn]⟩
        · intro hs
          rw [m1cm, Ccm2]
          simp [hs]
        · intro hM
          rw [m1cm] at hM
          rcases Bool.or_eq_true_iff.mp hM with hcm | hset
          · left
            rw [Ccm2] at hcm
            exact hcm
          · right
            simp only [Bool.and_eq_true, Bool.not_eq_true'] at hset
            obtain ⟨⟨hpf2, hcm2⟩, hcond2⟩ := hset
            refine ⟨by rw [m1pf]; exact hpf2, ?_⟩
            rcases phaseCond_cond h2 with ⟨hcd, hgf⟩ | ⟨hgt, e, hpye, hcd⟩
            · rw [p1pf] at hgf
              rw [Cpf2] at hpf2
              rw [p1cm] at hgf
              rw [Ccm2] at hcm2
              rw [hpf2, hcm2] at hgf
              simp at hgf
            · refine ⟨e, ?_, by rw [hcond2] at hcd; exact hcd.symm⟩
              rw [Ce, ← p1e]
              exact hpye
        · intro hs
          rw [Cpf]
          simp [hs]
        · intro hM
          rw [Cpf] at hM
          rcases Bool.or_eq_true_iff.mp hM with hold | hnew
          · exact Or.inl hold
          · right
            refine ⟨s.tick + 1, ?_⟩
            rw [Cpd]
            have hd := of_decide_eq_true hnew
            have hbs : baseStart clock s = clock s.tick := by
              simp [baseStart, hfe]
            rw [hbs]
            simpa using hd
        · rw [m1st]
          split
          · exact Or.inr ⟨t2.tick, rfl⟩
          · rw [Cst2]
            left
            simp [baseStart, hfe]
  · rw [phaseFirst_of_ne hfe] at h0
    cases h0
    refine ⟨?_, ?_, ?_, ?_, ?_, ?_, ?_, ?_, ?_, ?_⟩
    · rw [Ce]; simp [hfe]
    · rw [Cpo]
    · rw [Caf]
    · rw [Cla]; simp [hfe]
    · rw [if_neg hfe]
      exact ⟨by rw [Cpd], by rw [Cpod], by rw [Cfn]⟩
    · intro hs
      rw [m1cm, Ccm2]
      simp [hs]
    · intro hM
      rw [m1cm] at hM
      rcases Bool.or_eq_true_iff.mp hM with hcm | hset
      · left
        rw [Ccm2] at hcm
        exact hcm
      · right
        simp only [Bool.and_eq_true, Bool.not_eq_true'] at hset
        obtain ⟨⟨hpf2, hcm2⟩, hcond2⟩ := hset
        refine ⟨by rw [m1pf]; exact hpf2, ?_⟩
        rcases phaseCond_cond h2 with ⟨hcd, hgf⟩ | ⟨hgt, e, hpye, hcd⟩
        · rw [p1pf] at hgf
          rw [Cpf2] at hpf2
          rw [p1cm] at hgf
          rw [Ccm2] at hcm2
          rw [hpf2, hcm2] at hgf
          simp at hgf
        · refine ⟨e, ?_, by rw [hcond2] at hcd; exact hcd.symm⟩
          rw [Ce, ← p1e]
          exact hpye
    · intro hs
      rw [Cpf]
      simp [hs]
    · intro hM
      rw [Cpf] at hM
      rcases Bool.or_eq_true_iff.mp hM with hold | hnew
      · exact Or.inl hold
      · right
        refine ⟨s.tick, ?_⟩
        rw [Cpd]
        have hd := of_decide_eq_true hnew
        have hbs : baseStart clock s = s.start_time := by
          simp [baseStart, hfe]
        rw [hbs]
        simpa using hd
    · rw [m1st]
      split
      · exact Or.inr ⟨t2.tick, rfl⟩
      · rw [Cst2]
        left
        simp [baseStart, hfe]

/-- How an `UpdResult` of `_update` becomes the `StepResult` of `update`. -/
def mapUpd : UpdResult → StepResult
  | UpdResult.ok s inv => StepResult.ret s inv false
  | UpdResult.raised s c => StepResult.raised s c
  | UpdResult.ixError => StepResult.ixError

/-- Master theorem: a non-trivial `update` call either hits an
`IndexError` while reading the current event, or runs the post-delay
block on a state related to the entry state by `Mid`. -/
theorem update_main (f : Call → Bool) (clock : Nat → Int) (p : List Event)
    (s : SchedState) (hp : p ≠ []) (ha : s.all_finished = false) :
    (pyIndex p (if s.event_num = -1 then 0 else s.event_num) = none ∧
      update f clock p s = StepResult.ixError) ∨
    (∃ t, Mid clock p s t ∧
      update f clock p s = mapUpd (phasePost f clock p t)) := by
  have hguard : ¬ ((p.isEmpty || s.all_finished) = true) := by
    simp [ha, hp]
  cases hf0 : phaseFirst clock p s with
  | none =>
      obtain ⟨he, hpy⟩ := phaseFirst_none hf0
      obtain ⟨e, hsome⟩ := pyIndex_zero hp
      rw [hsome] at hpy
      cases hpy
  | some t0 =>
      cases hc : phaseCond p (phasePre clock t0) with
      | none =>
          obtain ⟨hg, hpy⟩ := phaseCond_none hc
          left
          have hev : (phasePre clock t0).event_num = t0.event_num :=
            (phasePre_proj clock t0).1
          have ht0e := phaseFirst_evn hf0
          constructor
          · rw [hev, ht0e] at hpy
            exact hpy
          · unfold update
            rw [if_neg hguard]
            unfold _update
            rw [hf0]
            dsimp only
            rw [hc]
      | some t2 =>
          right
          refine ⟨phaseCondMet clock t2, mid_spec hf0 hc, ?_⟩
          unfold update
          rw [if_neg hguard]
          unfold _update
          rw [hf0]
          dsimp only
          rw [hc]
          dsimp only
          cases phasePost f clock p (phaseCondMet clock t2) <;> rfl

/- ### Ordering invariant -/

/-- Basic invariant of reachable scheduler states: the event counter
never drops below `-1`, and a finished post-delay phase only persists
after everything has finished. -/
def InvBase (s : SchedState) : Prop :=
  -1 ≤ s.event_num ∧ (s.postdelay_finished = true → s.all_finished = true)

theorem initState_InvBase : InvBase initState := by
  constructor
  · simp [initState]
  · intro h
    simp [initState] at h

/-- One `update` call preserves `InvBase`, moves `curIdx` forward by
exactly the number of invocations it performs (0 or 1), performs its
invocation (if any) at exactly `curIdx`, and never decreases the event
counter. -/
theorem step_consec {f : Call → Bool} {clock : Nat → Int} {p : List Event}
    {s s1 : SchedState} {inv : Option Call} {b : Bool}
    (hI : InvBase s) (h : update f clock p s = StepResult.ret s1 inv b) :
    InvBase s1 ∧ curIdx s1 = curIdx s + (if inv.isSome then 1 else 0) ∧
      (∀ cc, inv = some cc → cc.idx = curIdx s) ∧ s.event_num ≤ s1.event_num := by
  obtain ⟨hge, hpa⟩ := hI
  cases b with
  | true =>
      obtain ⟨h1, h2, -⟩ := update_ret_true h
      subst h1
      subst h2
      refine ⟨⟨hge, hpa⟩, by simp, ?_, le_refl _⟩
      intro cc hcc
      cases hcc
  | false =>
      obtain ⟨hp, ha, -⟩ := update_ret_false h
      have hspo : s.postdelay_finished = false := by
        cases hq : s.postdelay_finished with
        | false => rfl
        | true => rw [hpa hq] at ha; cases ha
      rcases update_main f clock p s hp ha with ⟨-, heq⟩ | ⟨t, hmid, heq⟩
      · rw [h] at heq
        cases heq
      · rw [h] at heq
        have hevt := hmid.evn
        have htpo : t.postdelay_finished = false := by
          rw [hmid.postf, hspo]
        have htal : t.all_finished = false := by
          rw [hmid.allf, ha]
        have hcs : curIdx s = if s.event_num = -1 then 0 else s.event_num := by
          unfold curIdx
          rw [hspo]
          simp
        rcases phasePost_cases f clock p t with
          ⟨hng, hpp⟩ | ⟨hg, ht, hpp⟩ | ⟨hg, ht, hpy, hpp⟩ |
          ⟨e, hg, ht, hpy, hfire⟩
        · rw [hpp] at heq
          unfold mapUpd at heq
          injection heq with h1 h2 h3
          subst h1
          subst h2
          refine ⟨⟨?_, ?_⟩, ?_, ?_, ?_⟩
          · rw [hevt]
            split <;> omega
          · intro hq
            rw [htpo] at hq
            cases hq
          · unfold curIdx
            rw [htpo, hspo, hevt]
            by_cases hne : s.event_num = -1 <;> simp [hne]
          · intro cc hcc
            cases hcc
          · rw [hevt]
            split <;> omega
        · rw [hpp] at heq
          unfold mapUpd at heq
          injection heq with h1 h2 h3
          subst h1
          subst h2
          refine ⟨⟨?_, ?_⟩, ?_, ?_, ?_⟩
          · show -1 ≤ t.event_num
            rw [hevt]
            split <;> omega
          · intro hq
            rw [show ({ t with tick := t.tick + 1 } : SchedState).postdelay_finished
                = t.postdelay_finished from rfl, htpo] at hq
            cases hq
          · unfold curIdx
            rw [show ({ t with tick := t.tick + 1 } : SchedState).postdelay_finished
                = t.postdelay_finished from rfl, htpo, hspo]
            rw [show ({ t with tick := t.tick + 1 } : SchedState).event_num
                = t.event_num from rfl, hevt]
            by_cases hne : s.event_num = -1 <;> simp [hne]
          · intro cc hcc
            cases hcc
          · rw [show ({ t with tick := t.tick + 1 } : SchedState).event_num
                = t.event_num from rfl, hevt]
            split <;> omega
        · rw [hpp] at heq
          unfold mapUpd at heq
          cases heq
        · rcases hfire with ⟨hf, hpp⟩ | ⟨hf, hl, hpp⟩ | ⟨hf, hl, hpy2, hpp⟩ |
            ⟨e2, hf, hl, hpy2, hpp⟩
          · rw [hpp] at heq
            unfold mapUpd at heq
            cases heq
          · rw [hpp] at heq
            unfold mapUpd at heq
            injection heq with h1 h2 h3
            subst h1
            subst h2
            refine ⟨⟨?_, ?_⟩, ?_, ?_, ?_⟩
            · show -1 ≤ t.event_num
              rw [hevt]
              split <;> omega
            · intro hq
              rfl
            · rw [hcs]
              by_cases hne : s.event_num = -1 <;>
                simp [curIdx, fireState, hevt, hne]
            · intro cc hcc
              cases hcc
              rw [hcs]
              show t.event_num = _
              rw [hevt]
            · show s.event_num ≤ t.event_num
              rw [hevt]
              split <;> omega
          · rw [hpp] at heq
            unfold mapUpd at heq
            cases heq
          · rw [hpp] at heq
            unfold mapUpd at heq
            injection heq with h1 h2 h3
            subst h1
            subst h2
            refine ⟨⟨?_, ?_⟩, ?_, ?_, ?_⟩
            · show -1 ≤ t.event_num + 1
              rw [hevt]
              split <;> omega
            · intro hq
              rw [show (advState clock p t e2).postdelay_finished = false from rfl] at hq
              cases hq
            · rw [hcs]
              by_cases hne : s.event_num = -1
              · simp [curIdx, advState, hevt, hne]
              · have hne2 : ¬ (s.event_num + 1 = -1) := by omega
                simp [curIdx, advState, hevt, hne, hne2]
            · intro cc hcc
              cases hcc
              rw [hcs]
              show t.event_num = _
              rw [hevt]
            · show s.event_num ≤ t.event_num + 1
              rw [hevt]
              split <;> omega

/-- Over a whole run, the invocations carry consecutive event numbers
starting at the entry `curIdx`. -/
theorem run_consec {f : Call → Bool} {clock : Nat → Int}
    {inputs : List (List Event)} {s : SchedState} (hI : InvBase s)
    {s2 : SchedState} {outs : List (Bool × Option Call)}
    (h : run f clock inputs s = RunOut.ok s2 outs) :
    consecFromB (curIdx s) (outs.filterMap Prod.snd) = true ∧ InvBase s2 := by
  induction inputs generalizing s outs with
  | nil =>
      unfold run at h
      cases h
      exact ⟨rfl, hI⟩
  | cons p rest ih =>
      unfold run at h
      cases hstep : update f clock p s with
      | ret s1 inv b =>
          rw [hstep] at h
          dsimp only at h
          cases hrun : run f clock rest s1 with
          | ok s2x outsx =>
              rw [hrun] at h
              dsimp only at h
              injection h with h1 h2
              subst h1
              subst h2
              obtain ⟨hI1, hcur, hidx, -⟩ := step_consec hI hstep
              obtain ⟨hc2, hI2⟩ := ih hI1 hrun
              cases inv with
              | none =>
                  simp only [Option.isSome_none, Bool.false_eq_true, if_false,
                    add_zero] at hcur
                  refine ⟨?_, hI2⟩
                  show consecFromB (curIdx s) (List.filterMap Prod.snd outsx) = true
                  rw [← hcur]
                  exact hc2
              | some cc =>
                  refine ⟨?_, hI2⟩
                  show consecFromB (curIdx s) (cc :: List.filterMap Prod.snd outsx) = true
                  unfold consecFromB
                  rw [Bool.and_eq_true, decide_eq_true_iff]
                  constructor
                  · exact hidx cc rfl
                  · simp only [Option.isSome_some, if_true] at hcur
                    rw [← hcur]
                    exact hc2
          | raised s2x outsx c =>
              rw [hrun] at h
              cases h
          | ixError outsx =>
              rw [hrun] at h
              cases h
      | raised s1 c =>
          rw [hstep] at h
          cases h
      | ixError =>
          rw [hstep] at h
          cases h

/- ### Fixed-length invariant -/

/-- Invariant of states reachable when every call supplies the same
number `n` of events: the event counter stays in range, `_is_last`
tracks exactly the final index, and `_postdelay_finished` persists
exactly on the finished state. -/
def Inv (n : Nat) (s : SchedState) : Prop :=
  -1 ≤ s.event_num ∧ s.event_num < (n : Int) ∧
  (s.is_last = true ↔ s.event_num = (n : Int) - 1) ∧
  (s.postdelay_finished = true → s.all_finished = true) ∧
  (s.all_finished = true → s.postdelay_finished = true)

theorem initState_Inv {n : Nat} (hn : 1 ≤ n) : Inv n initState := by
  refine ⟨by simp [initState], by simp [initState]; omega, ?_, ?_, ?_⟩
  · simp only [initState]
    constructor
    · intro h
      cases h
    · intro h
      omega
  · intro h
    simp [initState] at h
  · intro h
    simp [initState] at h

/-- One `update` call under the fixed-length contract: never an
`IndexError`; a normal return preserves the invariant, returns `true`
exactly when everything had already finished, and newly finishes
exactly when it invokes the callback of the final event. -/
theorem step_inv (f : Call → Bool) (clock : Nat → Int) {p : List Event}
    {n : Nat} {s : SchedState} (hn : 1 ≤ n) (hI : Inv n s)
    (hlen : p.length = n) :
    (∃ s1 inv b, update f clock p s = StepResult.ret s1 inv b ∧ Inv n s1 ∧
      (b = true ↔ s.all_finished = true) ∧
      (s1.all_finished = true ↔ (s.all_finished = true ∨
        ∃ cc, inv = some cc ∧ cc.idx = (n : Int) - 1))) ∨
    (∃ s1 c, update f clock p s = StepResult.raised s1 c) := by
  obtain ⟨hb1, hb2, hiff, hpa, hap⟩ := hI
  have hp : p ≠ [] := by
    intro hq
    rw [hq] at hlen
    simp at hlen
    omega
  by_cases ha : s.all_finished = true
  · left
    exact ⟨s, none, true, update_finished f clock p s ha,
      ⟨hb1, hb2, hiff, hpa, hap⟩, by simp [ha], by simp [ha]⟩
  · rw [Bool.not_eq_true] at ha
    rcases update_main f clock p s hp (by rw [ha]) with ⟨hpy, -⟩ | ⟨t, hmid, heq⟩
    · exfalso
      have h0 : 0 ≤ (if s.event_num = -1 then 0 else s.event_num) := by
        split <;> omega
      have h1 : (if s.event_num = -1 then 0 else s.event_num) < (p.length : Int) := by
        rw [hlen]
        split <;> omega
      obtain ⟨e, he⟩ := pyIndex_some_of_lt h0 h1
      rw [he] at hpy
      cases hpy
    · have hevt := hmid.evn
      have htpo : t.postdelay_finished = s.postdelay_finished := hmid.postf
      have htal : t.all_finished = false := by rw [hmid.allf, ha]
      have hte0 : 0 ≤ t.event_num := by
        rw [hevt]
        split <;> omega
      have hte1 : t.event_num < (n : Int) := by
        rw [hevt]
        split <;> omega
      have hlen2 : (p.length : Int) = (n : Int) := by rw [hlen]
      have hC : t.is_last = true ↔ t.event_num = (n : Int) - 1 := by
        rw [hmid.lastc, hevt, hlen2]
        by_cases hne : s.event_num = -1
        · by_cases hz : (0 : Int) = (n : Int) - 1
          · simp [hne, hz]
          · rw [if_neg (fun hq => hz hq.2), if_pos hne, hiff]
            constructor <;> intro hq <;> omega
        · rw [if_neg (fun hq => hne hq.1), if_neg hne]
          exact hiff
      rcases phasePost_cases f clock p t with
        ⟨hng, hpp⟩ | ⟨hg, htt, hpp⟩ | ⟨hg, htt, hpy, hpp⟩ |
        ⟨e, hg, htt, hpy, hfire⟩
      · left
        rw [hpp] at heq
        refine ⟨t, none, false, heq, ⟨by omega, hte1, hC, ?_, ?_⟩,
          by simp [ha], by simp [htal, ha]⟩
        · intro hq
          rw [htpo] at hq
          rw [hpa hq] at ha
          cases ha
        · intro hq
          rw [hq] at htal
          cases htal
      · left
        rw [hpp] at heq
        refine ⟨_, none, false, heq,
          ⟨by show -1 ≤ t.event_num; omega,
           by show t.event_num < (n : Int); exact hte1,
           by show t.is_last = true ↔ t.event_num = (n : Int) - 1; exact hC,
           ?_, ?_⟩, by simp [ha], ?_⟩
        · intro hq
          rw [show ({ t with tick := t.tick + 1 } : SchedState).postdelay_finished
            = t.postdelay_finished from rfl, htpo] at hq
          rw [hpa hq] at ha
          cases ha
        · intro hq
          rw [show ({ t with tick := t.tick + 1 } : SchedState).all_finished
            = t.all_finished from rfl] at hq
          rw [hq] at htal
          cases htal
        · constructor
          · intro hq
            rw [show ({ t with tick := t.tick + 1 } : SchedState).all_finished
              = t.all_finished from rfl, htal] at hq
            cases hq
          · intro hq
            rcases hq with hq | ⟨cc, hcc, -⟩
            · rw [hq] at ha
              cases ha
            · cases hcc
      · exfalso
        obtain ⟨e, he⟩ := pyIndex_some_of_lt hte0 (by rw [hlen]; exact hte1)
        rw [he] at hpy
        cases hpy
      · rcases hfire with ⟨hf, hpp⟩ | ⟨hf, hl, hpp⟩ | ⟨hf, hl, hpy2, hpp⟩ |
          ⟨e2, hf, hl, hpy2, hpp⟩
        · right
          rw [hpp] at heq
          exact ⟨fireState t, fireCall t e, heq⟩
        · left
          rw [hpp] at heq
          have hfin : t.event_num = (n : Int) - 1 := hC.mp hl
          refine ⟨_, some (fireCall t e), false, heq,
            ⟨by show -1 ≤ t.event_num; omega,
             by show t.event_num < (n : Int); exact hte1, ?_, ?_, ?_⟩,
            by simp [ha], ?_⟩
          · show t.is_last = true ↔ t.event_num = (n : Int) - 1
            exact hC
          · intro hq
            rfl
          · intro hq
            rfl
          · constructor
            · intro hq
              exact Or.inr ⟨fireCall t e, rfl, hfin⟩
            · intro hq
              rfl
        · exfalso
          have hnl : ¬ (t.event_num = (n : Int) - 1) := by
            intro hq
            rw [← hC] at hq
            rw [hl] at hq
            cases hq
          have hlt : t.event_num + 1 < (p.length : Int) := by
            rw [hlen2]
            omega
          obtain ⟨e2, he2⟩ := pyIndex_some_of_lt (by omega) hlt
          rw [he2] at hpy2
          cases hpy2
        · left
          rw [hpp] at heq
          have hnl : ¬ (t.event_num = (n : Int) - 1) := by
            intro hq
            rw [← hC] at hq
            rw [hl] at hq
            cases hq
          refine ⟨_, some (fireCall t e), false, heq,
            ⟨?_, ?_, ?_, ?_, ?_⟩, by simp [ha], ?_⟩
          · show -1 ≤ t.event_num + 1
            omega
          · show t.event_num + 1 < (n : Int)
            omega
          · show (if t.event_num + 1 = (p.length : Int) - 1 then true else t.is_last)
              = true ↔ t.event_num + 1 = (n : Int) - 1
            rw [hlen2]
            by_cases hz : t.event_num + 1 = (n : Int) - 1
            · simp [hz]
            · simp [hz, hl]
          · intro hq
            rw [show (advState clock p t e2).postdelay_finished = false from rfl] at hq
            cases hq
          · intro hq
            rw [show (advState clock p t e2).all_finished = t.all_finished from rfl,
              htal] at hq
            cases hq
          · constructor
            · intro hq
              rw [show (advState clock p t e2).all_finished = t.all_finished from rfl,
                htal] at hq
              cases hq
            · intro hq
              rcases hq with hq | ⟨cc, hcc, hidx⟩
              · rw [hq] at ha
                cases ha
              · cases hcc
                exact absurd hidx hnl

/-- Over a whole run under the fixed-length contract: no `IndexError`
ever escapes, and a call returns `true` exactly when the sequencer was
already finished on entry to the run or some earlier call of the run
invoked the callback of the final event. -/
theorem run_inv {f : Call → Bool} {clock : Nat → Int}
    {inputs : List (List Event)} {n : Nat} {s : SchedState}
    (hn : 1 ≤ n) (hI : Inv n s) (hlen : ∀ p ∈ inputs, p.length = n) :
    (∀ outs, run f clock inputs s ≠ RunOut.ixError outs) ∧
    (∀ s2 outs, run f clock inputs s = RunOut.ok s2 outs →
      ∀ k, ∀ hk : k < outs.length,
        ((outs.get ⟨k, hk⟩).1 = true ↔ (s.all_finished = true ∨
          ∃ pr ∈ outs.take k, ∃ cc, pr.2 = some cc ∧
            cc.idx = (n : Int) - 1))) := by
  induction inputs generalizing s with
  | nil =>
      constructor
      · intro outs h
        cases h
      · intro s2 outs h
        cases h
        intro k hk
        cases hk
  | cons p rest ih =>
      have hplen : p.length = n := hlen p (by simp)
      have hrlen : ∀ q ∈ rest, q.length = n := by
        intro q hq
        exact hlen q (by simp [hq])
      rcases step_inv f clock hn hI hplen with
        ⟨s1, inv, b, hstep, hI1, hbt, hfin⟩ | ⟨s1, c, hstep⟩
      · obtain ⟨ihix, ihok⟩ := ih hI1 hrlen
        constructor
        · intro outs h
          unfold run at h
          rw [hstep] at h
          dsimp only at h
          cases hrun : run f clock rest s1 with
          | ok s2x outsx => rw [hrun] at h; cases h
          | raised s2x outsx c => rw [hrun] at h; cases h
          | ixError outsx =>
              exact ihix outsx hrun
        · intro s2 outs h
          unfold run at h
          rw [hstep] at h
          dsimp only at h
          cases hrun : run f clock rest s1 with
          | ok s2x outsx =>
              rw [hrun] at h
              dsimp only at h
              injection h with h1 h2
              subst h1
              subst h2
              intro k hk
              cases k with
              | zero =>
                  rw [show (((b, inv) :: outsx).get ⟨0, hk⟩).1 = b from rfl, hbt]
                  simp
              | succ kk =>
                  have hkk : kk < outsx.length := by
                    simpa using hk
                  have hih := ihok _ outsx hrun kk hkk
                  rw [show ((b, inv) :: outsx).get ⟨kk + 1, hk⟩
                    = outsx.get ⟨kk, hkk⟩ from rfl]
                  rw [hih, hfin]
                  rw [show ((b, inv) :: outsx).take (kk + 1)
                    = (b, inv) :: outsx.take kk from rfl]
                  constructor
                  · intro hq
                    rcases hq with (hq | ⟨cc, hcc, hidx⟩) | ⟨pr, hpr, cc, hcc, hidx⟩
                    · exact Or.inl hq
                    · exact Or.inr ⟨(b, inv), by simp, cc, hcc, hidx⟩
                    · exact Or.inr ⟨pr, by simp [hpr], cc, hcc, hidx⟩
                  · intro hq
                    rcases hq with hq | ⟨pr, hpr, cc, hcc, hidx⟩
                    · exact Or.inl (Or.inl hq)
                    · rcases List.mem_cons.mp hpr with hpr | hpr
                      · subst hpr
                        exact Or.inl (Or.inr ⟨cc, hcc, hidx⟩)
                      · exact Or.inr ⟨pr, hpr, cc, hcc, hidx⟩
          | raised s2x outsx c =>
              rw [hrun] at h
              cases h
          | ixError outsx =>
              rw [hrun] at h
              cases h
      · constructor
        · intro outs h
          unfold run at h
          rw [hstep] at h
          cases h
        · intro s2 outs h
          unfold run at h
          rw [hstep] at h
          cases h

/- ### Condition gating -/

/-- Gate invariant for an event `j` whose condition is never supplied
true: the condition-met latch is never set while `j` is current. -/
def GateC (j : Int) (s : SchedState) : Prop :=
  (s.event_num = j → s.condition_met = false) ∧
  (s.event_num = -1 → s.condition_met = false)

theorem step_gateC {f : Call → Bool} {clock : Nat → Int} {p : List Event}
    {j : Int} {s s1 : SchedState} {inv : Option Call} {b : Bool}
    (hG : GateC j s)
    (hpc : ∀ e, pyIndex p j = some e → e.condition = false)
    (h : update f clock p s = StepResult.ret s1 inv b) :
    GateC j s1 ∧ ∀ cc, inv = some cc → cc.idx ≠ j := by
  obtain ⟨hgj, hgm⟩ := hG
  cases b with
  | true =>
      obtain ⟨h1, h2, -⟩ := update_ret_true h
      subst h1
      subst h2
      exact ⟨⟨hgj, hgm⟩, fun cc hcc => by cases hcc⟩
  | false =>
      obtain ⟨hp, ha, -⟩ := update_ret_false h
      rcases update_main f clock p s hp ha with ⟨-, heq⟩ | ⟨t, hmid, heq⟩
      · rw [h] at heq
        cases heq
      · have hevt := hmid.evn
        have htne : t.event_num ≠ -1 := by
          rw [hevt]
          by_cases hne : s.event_num = -1
          · simp [hne]
          · rw [if_neg hne]
            exact hne
        have ht_cm : t.event_num = j → t.condition_met = false := by
          intro hj
          cases hc : t.condition_met with
          | false => rfl
          | true =>
              exfalso
              rcases hmid.cm_new hc with hsc | ⟨-, e, hpye, hec⟩
              · by_cases hne : s.event_num = -1
                · rw [hgm hne] at hsc
                  cases hsc
                · have : s.event_num = j := by
                    rw [hevt, if_neg hne] at hj
                    exact hj
                  rw [hgj this] at hsc
                  cases hsc
              · rw [hj] at hpye
                rw [hpc e hpye] at hec
                cases hec
        rw [h] at heq
        rcases phasePost_cases f clock p t with
          ⟨hng, hpp⟩ | ⟨hg, htt, hpp⟩ | ⟨hg, htt, hpy, hpp⟩ |
          ⟨e, hg, htt, hpy, hfire⟩
        · rw [hpp] at heq
          unfold mapUpd at heq
          injection heq with h1 h2 h3
          subst h1
          subst h2
          exact ⟨⟨ht_cm, fun hq => absurd hq htne⟩, fun cc hcc => by cases hcc⟩
        · rw [hpp] at heq
          unfold mapUpd at heq
          injection heq with h1 h2 h3
          subst h1
          subst h2
          refine ⟨⟨?_, ?_⟩, fun cc hcc => by cases hcc⟩
          · intro hq
            exact ht_cm hq
          · intro hq
            exact absurd hq htne
        · rw [hpp] at heq
          unfold mapUpd at heq
          cases heq
        · have htj : t.event_num ≠ j := by
            intro hj
            obtain ⟨-, hcm2, -⟩ := hg
            rw [ht_cm hj] at hcm2
            cases hcm2
          rcases hfire with ⟨hf, hpp⟩ | ⟨hf, hl, hpp⟩ | ⟨hf, hl, hpy2, hpp⟩ |
            ⟨e2, hf, hl, hpy2, hpp⟩
          · rw [hpp] at heq
            unfold mapUpd at heq
            cases heq
          · rw [hpp] at heq
            unfold mapUpd at heq
            injection heq with h1 h2 h3
            subst h1
            subst h2
            refine ⟨⟨?_, ?_⟩, ?_⟩
            · intro hq
              exact absurd hq htj
            · intro hq
              exact absurd hq htne
            · intro cc hcc
              cases hcc
              exact htj
          · rw [hpp] at heq
            unfold mapUpd at heq
            cases heq
          · rw [hpp] at heq
            unfold mapUpd at heq
            injection heq with h1 h2 h3
            subst h1
            subst h2
            refine ⟨⟨?_, ?_⟩, ?_⟩
            · intro hq
              rfl
            · intro hq
              rfl
            · intro cc hcc
              cases hcc
              exact htj

/-- Over a run in which event `j` is supplied a false condition on
every call, no invocation carries index `j`. -/
theorem run_gateC {f : Call → Bool} {clock : Nat → Int}
    {inputs : List (List Event)} {j : Int} {s : SchedState}
    (hG : GateC j s)
    (hpc : ∀ p ∈ inputs, ∀ e, pyIndex p j = some e → e.condition = false)
    {s2 : SchedState} {outs : List (Bool × Option Call)}
    (h : run f clock inputs s = RunOut.ok s2 outs) :
    ∀ cc ∈ outs.filterMap Prod.snd, cc.idx ≠ j := by
  induction inputs generalizing s outs with
  | nil =>
      cases h
      intro cc hcc
      cases hcc
  | cons p rest ih =>
      unfold run at h
      cases hstep : update f clock p s with
      | ret s1 inv b =>
          rw [hstep] at h
          dsimp only at h
          cases hrun : run f clock rest s1 with
          | ok s2x outsx =>
              rw [hrun] at h
              dsimp only at h
              injection h with h1 h2
              subst h1
              subst h2
              obtain ⟨hG1, hinv⟩ := step_gateC hG (hpc p (by simp)) hstep
              have hrest := ih hG1 (fun q hq => hpc q (by simp [hq])) hrun
              intro cc hcc
              cases inv with
              | none =>
                  have hcc2 : cc ∈ outsx.filterMap Prod.snd := hcc
                  exact hrest cc hcc2
              | some c0 =>
                  have hcc2 : cc ∈ c0 :: outsx.filterMap Prod.snd := hcc
                  rcases List.mem_cons.mp hcc2 with hcc3 | hcc3
                  · subst hcc3
                    exact hinv cc rfl
                  · exact hrest cc hcc3
          | raised s2x outsx c =>
              rw [hrun] at h
              cases h
          | ixError outsx =>
              rw [hrun] at h
              cases h
      | raised s1 c =>
          rw [hstep] at h
          cases h
      | ixError =>
          rw [hstep] at h
          cases h

/- ### Delay gating under a frozen clock -/

/-- Gate invariant for delay gating: under a constant clock `T`, all
recorded start times equal `T`, and while an event `j` with a positive
delay is current, the corresponding phase flag stays unset. -/
def GateD (T : Int) (j : Int) (s : SchedState) : Prop :=
  -1 ≤ s.event_num ∧
  (s.event_num ≠ -1 → s.start_time = T) ∧
  (s.event_num = -1 → s.predelay_finished = false) ∧
  (s.event_num = j →
    ((0 < s.predelay ∨ 0 < s.postdelay) ∧
      (0 < s.predelay → s.predelay_finished = false)))

theorem step_gateD {f : Call → Bool} {clock : Nat → Int} {p : List Event}
    {T j : Int} {s s1 : SchedState} {inv : Option Call} {b : Bool}
    (hT : ∀ x, clock x = T) (hj0 : 0 ≤ j) (hG : GateD T j s)
    (hpd : ∀ e, pyIndex p j = some e → 0 < e.predelay ∨ 0 < e.postdelay)
    (h : update f clock p s = StepResult.ret s1 inv b) :
    GateD T j s1 ∧ ∀ cc, inv = some cc → cc.idx ≠ j := by
  obtain ⟨hge, hst, hm1, hcur⟩ := hG
  cases b with
  | true =>
      obtain ⟨h1, h2, -⟩ := update_ret_true h
      subst h1
      subst h2
      exact ⟨⟨hge, hst, hm1, hcur⟩, fun cc hcc => by cases hcc⟩
  | false =>
      obtain ⟨hp, ha, -⟩ := update_ret_false h
      rcases update_main f clock p s hp ha with ⟨-, heq⟩ | ⟨t, hmid, heq⟩
      · rw [h] at heq
        cases heq
      · have hevt := hmid.evn
        have hbase : baseStart clock s = T := by
          unfold baseStart
          split
          · exact hT s.tick
          · exact hst (by assumption)
        have htne : t.event_num ≠ -1 := by
          rw [hevt]
          by_cases hne : s.event_num = -1
          · simp [hne]
          · rw [if_neg hne]
            exact hne
        have hte0 : 0 ≤ t.event_num := by
          rw [hevt]
          split <;> omega
        have htst : t.start_time = T := by
          rcases hmid.stc with hq | ⟨x, hq⟩
          · rw [hq, hbase]
          · rw [hq, hT x]
        have htdl : t.event_num = j →
            (0 < t.predelay ∨ 0 < t.postdelay) ∧
              (0 < t.predelay → t.predelay_finished = false) := by
          intro hj
          have hdl : 0 < t.predelay ∨ 0 < t.postdelay := by
            have hdpf := hmid.dpf
            by_cases hne : s.event_num = -1
            · rw [if_pos hne] at hdpf
              obtain ⟨e0, hpy0, he1, he2, -⟩ := hdpf
              have hj0e : j = 0 := by
                rw [hevt, if_pos hne] at hj
                omega
              rw [he1, he2]
              exact hpd e0 (by rw [← hj0e] at hpy0; exact hpy0)
            · rw [if_neg hne] at hdpf
              obtain ⟨he1, he2, -⟩ := hdpf
              have hsj : s.event_num = j := by
                rw [hevt, if_neg hne] at hj
                exact hj
              rw [he1, he2]
              exact (hcur hsj).1
          refine ⟨hdl, ?_⟩
          intro hpre
          cases hpf : t.predelay_finished with
          | false => rfl
          | true =>
              exfalso
              rcases hmid.pf_new hpf with hspf | ⟨x, hle⟩
              · by_cases hne : s.event_num = -1
                · rw [hm1 hne] at hspf
                  cases hspf
                · have hsj : s.event_num = j := by
                    rw [hevt, if_neg hne] at hj
                    exact hj
                  have hdpf := hmid.dpf
                  rw [if_neg hne] at hdpf
                  have hsp : 0 < s.predelay := by
                    rw [← hdpf.1]
                    exact hpre
                  rw [(hcur hsj).2 hsp] at hspf
                  cases hspf
              · rw [hT x, hbase] at hle
                omega
        rw [h] at heq
        rcases phasePost_cases f clock p t with
          ⟨hng, hpp⟩ | ⟨hg, htt, hpp⟩ | ⟨hg, htt, hpy, hpp⟩ |
          ⟨e, hg, htt, hpy, hfire⟩
        · rw [hpp] at heq
          unfold mapUpd at heq
          injection heq with h1 h2 h3
          subst h1
          subst h2
          exact ⟨⟨by omega, fun hq => htst, fun hq => absurd hq htne, htdl⟩,
            fun cc hcc => by cases hcc⟩
        · rw [hpp] at heq
          unfold mapUpd at heq
          injection heq with h1 h2 h3
          subst h1
          subst h2
          refine ⟨⟨?_, ?_, ?_, ?_⟩, fun cc hcc => by cases hcc⟩
          · show -1 ≤ t.event_num
            omega
          · intro hq
            exact htst
          · intro hq
            exact absurd hq htne
          · intro hq
            exact htdl hq
        · rw [hpp] at heq
          unfold mapUpd at heq
          cases heq
        · have htj : t.event_num ≠ j := by
            intro hj
            obtain ⟨hgpf, hgcm, hgpo⟩ := hg
            obtain ⟨hdl, hpref⟩ := htdl hj
            have htt2 : t.postdelay ≤ 0 := by
              rw [hT t.tick, htst] at htt
              omega
            have hpre : 0 < t.predelay := by
              rcases hdl with hq | hq
              · exact hq
              · omega
            rw [hpref hpre] at hgpf
            cases hgpf
          rcases hfire with ⟨hf, hpp⟩ | ⟨hf, hl, hpp⟩ | ⟨hf, hl, hpy2, hpp⟩ |
            ⟨e2, hf, hl, hpy2, hpp⟩
          · rw [hpp] at heq
            unfold mapUpd at heq
            cases heq
          · rw [hpp] at heq
            unfold mapUpd at heq
            injection heq with h1 h2 h3
            subst h1
            subst h2
            refine ⟨⟨?_, ?_, ?_, ?_⟩, ?_⟩
            · show -1 ≤ t.event_num
              omega
            · intro hq
              exact htst
            · intro hq
              exact absurd hq htne
            · intro hq
              exact absurd hq htj
            · intro cc hcc
              cases hcc
              exact htj
          · rw [hpp] at heq
            unfold mapUpd at heq
            cases heq
          · rw [hpp] at heq
            unfold mapUpd at heq
            injection heq with h1 h2 h3
            subst h1
            subst h2
            refine ⟨⟨?_, ?_, ?_, ?_⟩, ?_⟩
            · show -1 ≤ t.event_num + 1
              omega
            · intro hq
              show clock (t.tick + 1) = T
              exact hT (t.tick + 1)
            · intro hq
              rw [show (advState clock p t e2).event_num = t.event_num + 1 from rfl] at hq
              omega
            · intro hq
              rw [show (advState clock p t e2).event_num = t.event_num + 1 from rfl] at hq
              constructor
              · show 0 < e2.predelay ∨ 0 < e2.postdelay
                rw [hq] at hpy2
                exact hpd e2 hpy2
              · intro hq2
                rfl
            · intro cc hcc
              cases hcc
              exact htj

/-- Over a run with a frozen clock in which event `j` always carries a
positive predelay or postdelay, no invocation carries index `j`. -/
theorem run_gateD {f : Call → Bool} {clock : Nat → Int}
    {inputs : List (List Event)} {T j : Int} {s : SchedState}
    (hT : ∀ x, clock x = T) (hj0 : 0 ≤ j) (hG : GateD T j s)
    (hpd : ∀ p ∈ inputs, ∀ e, pyIndex p j = some e →
      0 < e.predelay ∨ 0 < e.postdelay)
    {s2 : SchedState} {outs : List (Bool × Option Call)}
    (h : run f clock inputs s = RunOut.ok s2 outs) :
    ∀ cc ∈ outs.filterMap Prod.snd, cc.idx ≠ j := by
  induction inputs generalizing s outs with
  | nil =>
      cases h
      intro cc hcc
      cases hcc
  | cons p rest ih =>
      unfold run at h
      cases hstep : update f clock p s with
      | ret s1 inv b =>
          rw [hstep] at h
          dsimp only at h
          cases hrun : run f clock rest s1 with
          | ok s2x outsx =>
              rw [hrun] at h
              dsimp only at h
              injection h with h1 h2
              subst h1
              subst h2
              obtain ⟨hG1, hinv⟩ := step_gateD hT hj0 hG (hpd p (by simp)) hstep
              have hrest := ih hG1 (fun q hq => hpd q (by simp [hq])) hrun
              intro cc hcc
              cases inv with
              | none =>
                  have hcc2 : cc ∈ outsx.filterMap Prod.snd := hcc
                  exact hrest cc hcc2
              | some c0 =>
                  have hcc2 : cc ∈ c0 :: outsx.filterMap Prod.snd := hcc
                  rcases List.mem_cons.mp hcc2 with hcc3 | hcc3
                  · subst hcc3
                    exact hinv cc rfl
                  · exact hrest cc hcc3
          | raised s2x outsx c =>
              rw [hrun] at h
              cases h
          | ixError outsx =>
              rw [hrun] at h
              cases h
      | raised s1 c =>
          rw [hstep] at h
          cases h
      | ixError =>
          rw [hstep] at h
          cases h

/- ### Exception and argument lemmas -/

/-- When a callback raises, the state carried out is exactly the state
at the moment of invocation: the post-delay flag was already set (line
122 precedes the invocation at line 125), nothing was rolled back, and
`_all_finished` was not yet set. -/
theorem raised_state {f : Call → Bool} {clock : Nat → Int} {p : List Event}
    {s s1 : SchedState} {cc : Call}
    (h : update f clock p s = StepResult.raised s1 cc) :
    s1.predelay_finished = true ∧ s1.condition_met = true ∧
      s1.postdelay_finished = true ∧ s1.all_finished = false ∧
      s1.event_num ≠ -1 := by
  obtain ⟨hp, ha, -⟩ := update_raised_inv h
  rcases update_main f clock p s hp ha with ⟨-, heq⟩ | ⟨t, hmid, heq⟩
  · rw [h] at heq
    cases heq
  · rw [h] at heq
    have htne : t.event_num ≠ -1 := by
      rw [hmid.evn]
      by_cases hne : s.event_num = -1
      · simp [hne]
      · rw [if_neg hne]
        exact hne
    rcases phasePost_cases f clock p t with
      ⟨hng, hpp⟩ | ⟨hg, htt, hpp⟩ | ⟨hg, htt, hpy, hpp⟩ |
      ⟨e, hg, htt, hpy, hfire⟩
    · rw [hpp] at heq
      cases heq
    · rw [hpp] at heq
      cases heq
    · rw [hpp] at heq
      cases heq
    · rcases hfire with ⟨hf, hpp⟩ | ⟨hf, hl, hpp⟩ | ⟨hf, hl, hpy2, hpp⟩ |
        ⟨e2, hf, hl, hpy2, hpp⟩
      · rw [hpp] at heq
        unfold mapUpd at heq
        injection heq with h1 h2
        subst h1
        obtain ⟨hgpf, hgcm, -⟩ := hg
        refine ⟨?_, ?_, ?_, ?_, ?_⟩
        · show t.predelay_finished = true
          exact hgpf
        · show t.condition_met = true
          exact hgcm
        · rfl
        · show t.all_finished = false
          rw [hmid.allf]
          exact ha
        · show t.event_num ≠ -1
          exact htne
      · rw [hpp] at heq
        cases heq
      · rw [hpp] at heq
        cases heq
      · rw [hpp] at heq
        cases heq

/-- A state whose post-delay flag is set while `_all_finished` is not
(the state left behind by a raising callback) is inert: every later
call skips every block, changes nothing, invokes nothing and returns
`False`. -/
theorem stuck_step {s1 : SchedState} (hpf : s1.predelay_finished = true)
    (hcm : s1.condition_met = true) (hpo : s1.postdelay_finished = true)
    (ha : s1.all_finished = false) (hne : s1.event_num ≠ -1)
    (f2 : Call → Bool) (clock2 : Nat → Int) (p2 : List Event) (hp2 : p2 ≠ []) :
    update f2 clock2 p2 s1 = StepResult.ret s1 none false := by
  have hg : ¬ ((p2.isEmpty || s1.all_finished) = true) := by
    simp [ha, hp2]
  unfold update
  rw [if_neg hg]
  unfold _update
  rw [phaseFirst_of_ne hne]
  dsimp only
  have hpre : phasePre clock2 s1 = s1 := by
    unfold phasePre
    rw [if_pos hpf]
  rw [hpre]
  have hcnd : phaseCond p2 s1 = some s1 := by
    unfold phaseCond
    rw [hcm]
    simp
  rw [hcnd]
  dsimp only
  have hcm2 : phaseCondMet clock2 s1 = s1 := by
    unfold phaseCondMet
    rw [hcm]
    simp
  rw [hcm2]
  have hpost : phasePost f2 clock2 p2 s1 = UpdResult.ok s1 none := by
    unfold phasePost
    rw [hpo]
    simp
  rw [hpost]

/-- The argument bundles an invocation carries are exactly the ones the
triggering call supplied for the invoked event. -/
theorem invoked_args {f : Call → Bool} {clock : Nat → Int} {p : List Event}
    {s s1 : SchedState} {cc : Call} {b : Bool}
    (h : update f clock p s = StepResult.ret s1 (some cc) b) :
    ∃ e, pyIndex p cc.idx = some e ∧ cc.args = e.args ∧ cc.kwargs = e.kwargs := by
  cases b with
  | true =>
      obtain ⟨-, h2, -⟩ := update_ret_true h
      cases h2
  | false =>
      obtain ⟨hp, ha, -⟩ := update_ret_false h
      rcases update_main f clock p s hp ha with ⟨-, heq⟩ | ⟨t, hmid, heq⟩
      · rw [h] at heq
        cases heq
      · rw [h] at heq
        rcases phasePost_cases f clock p t with
          ⟨hng, hpp⟩ | ⟨hg, htt, hpp⟩ | ⟨hg, htt, hpy, hpp⟩ |
          ⟨e, hg, htt, hpy, hfire⟩
        · rw [hpp] at heq
          unfold mapUpd at heq
          injection heq with h1 h2
          cases h2
        · rw [hpp] at heq
          unfold mapUpd at heq
          injection heq with h1 h2
          cases h2
        · rw [hpp] at heq
          cases heq
        · rcases hfire with ⟨hf, hpp⟩ | ⟨hf, hl, hpp⟩ | ⟨hf, hl, hpy2, hpp⟩ |
            ⟨e2, hf, hl, hpy2, hpp⟩
          · rw [hpp] at heq
            cases heq
          · rw [hpp] at heq
            unfold mapUpd at heq
            injection heq with h1 h2
            injection h2 with h2
            subst h2
            exact ⟨e, hpy, rfl, rfl⟩
          · rw [hpp] at heq
            cases heq
          · rw [hpp] at heq
            unfold mapUpd at heq
            injection heq with h1 h2
            injection h2 with h2
            subst h2
            exact ⟨e, hpy, rfl, rfl⟩

/- ### Condition freshness lemmas -/

theorem pyIndex_nil (i : Int) : pyIndex [] i = none := by
  simp [pyIndex]

theorem ne_nil_of_pyIndex {p : List Event} {i : Int} {e : Event}
    (h : pyIndex p i = some e) : p ≠ [] := by
  intro hq
  rw [hq, pyIndex_nil] at h
  cases h

/-- While awaiting the condition, the cached `_condition` attribute is
overwritten before any use: the outcome of the call does not depend on it. -/
theorem cond_fresh {f : Call → Bool} {clock : Nat → Int} {p : List Event}
    {s : SchedState} (hpf : s.predelay_finished = true)
    (hcm : s.condition_met = false) (hne : s.event_num ≠ -1)
    (hp : p ≠ []) (ha : s.all_finished = false) (x y : Bool) :
    update f clock p { s with condition := x }
      = update f clock p { s with condition := y } := by
  have hc : phaseCond p ({ s with condition := x })
      = phaseCond p ({ s with condition := y }) := by
    unfold phaseCond _get_condition
    cases hpy : pyIndex p s.event_num <;> simp [hpf, hcm, hpy]
  have hgx : ¬ ((p.isEmpty ||
      ({ s with condition := x } : SchedState).all_finished) = true) := by
    simp [ha, hp]
  have hgy : ¬ ((p.isEmpty ||
      ({ s with condition := y } : SchedState).all_finished) = true) := by
    simp [ha, hp]
  unfold update _update
  rw [if_neg hgx, if_neg hgy,
    phaseFirst_of_ne (show ({ s with condition := x } : SchedState).event_num ≠ -1 from hne),
    phaseFirst_of_ne (show ({ s with condition := y } : SchedState).event_num ≠ -1 from hne)]
  dsimp only
  have hprex : phasePre clock ({ s with condition := x })
      = { s with condition := x } := by
    unfold phasePre
    rw [if_pos (show ({ s with condition := x } : SchedState).predelay_finished
      = true from hpf)]
  have hprey : phasePre clock ({ s with condition := y })
      = { s with condition := y } := by
    unfold phasePre
    rw [if_pos (show ({ s with condition := y } : SchedState).predelay_finished
      = true from hpf)]
  rw [hprex, hprey, hc]

/-- While awaiting the condition, a call whose parameters carry a false
condition for the current event latches nothing, invokes nothing and
only refreshes the cached condition (plus nothing else). -/
theorem cond_false_no_latch {f : Call → Bool} {clock : Nat → Int}
    {p : List Event} {s : SchedState} {e : Event}
    (hpf : s.predelay_finished = true) (hcm : s.condition_met = false)
    (hne : s.event_num ≠ -1) (ha : s.all_finished = false)
    (hpy : pyIndex p s.event_num = some e) (hec : e.condition = false) :
    update f clock p s = StepResult.ret { s with condition := false } none false := by
  have hp : p ≠ [] := ne_nil_of_pyIndex hpy
  have hg : ¬ ((p.isEmpty || s.all_finished) = true) := by
    simp [ha, hp]
  unfold update
  rw [if_neg hg]
  unfold _update
  rw [phaseFirst_of_ne hne]
  dsimp only
  have hpre : phasePre clock s = s := by
    unfold phasePre
    rw [if_pos hpf]
  rw [hpre]
  have hcnd : phaseCond p s = some { s with condition := false } := by
    unfold phaseCond _get_condition
    rw [hpy]
    simp [hpf, hcm, hec]
  rw [hcnd]
  dsimp only
  have hcmet : phaseCondMet clock ({ s with condition := false })
      = { s with condition := false } := by
    unfold phaseCondMet
    simp
  rw [hcmet]
  have hpost : phasePost f clock p ({ s with condition := false })
      = UpdResult.ok { s with condition := false } none := by
    unfold phasePost
    simp [hcm]
  rw [hpost]

/-- Once the condition has been observed true for the current event, the
condition supplied for that event in later calls is never read: the
call behaves identically whatever that condition is. -/
theorem cond_latched {f : Call → Bool} {clock : Nat → Int} {p : List Event}
    {s : SchedState} {i : Nat} {e : Event} (b2 : Bool)
    (hcm : s.condition_met = true) (hie : s.event_num = (i : Int))
    (hpy : pyIndex p s.event_num = some e) :
    update f clock p s = update f clock
      (p.set i ⟨e.predelay, b2, e.postdelay, e.func, e.args, e.kwargs⟩) s := by
  have hne : s.event_num ≠ -1 := by
    rw [hie]
    omega
  have hilen : i < p.length := by
    rw [hie, pyIndex_nonneg (by omega),
      show ((i : Int)).toNat = i from by omega] at hpy
    exact (List.getElem?_eq_some.mp hpy).1
  have hlen : (p.set i ⟨e.predelay, b2, e.postdelay, e.func, e.args, e.kwargs⟩).length
      = p.length := by
    simp
  have hpy2 : pyIndex (p.set i ⟨e.predelay, b2, e.postdelay, e.func, e.args, e.kwargs⟩)
      s.event_num = some ⟨e.predelay, b2, e.postdelay, e.func, e.args, e.kwargs⟩ := by
    rw [hie, pyIndex_nonneg (by omega),
      show ((i : Int)).toNat = i from by omega]
    exact List.getElem?_set_eq_of_lt _ (by simpa using hilen)
  have hsame : pyIndex (p.set i ⟨e.predelay, b2, e.postdelay, e.func, e.args, e.kwargs⟩)
      (s.event_num + 1) = pyIndex p (s.event_num + 1) := by
    rw [hie, pyIndex_nonneg (by omega), pyIndex_nonneg (by omega),
      show ((i : Int) + 1).toNat = i + 1 from by omega]
    exact List.getElem?_set_ne (by omega)
  have hp : p ≠ [] := ne_nil_of_pyIndex hpy
  have hp2 : p.set i ⟨e.predelay, b2, e.postdelay, e.func, e.args, e.kwargs⟩ ≠ [] := by
    intro hq
    rw [← List.length_eq_zero] at hq
    rw [hlen] at hq
    rw [List.length_eq_zero] at hq
    exact hp hq
  by_cases ha : s.all_finished = true
  · rw [update_finished f clock _ s ha, update_finished f clock _ s ha]
  · rw [Bool.not_eq_true] at ha
    have hg1 : ¬ ((p.isEmpty || s.all_finished) = true) := by
      simp [ha, hp]
    have hg2 : ¬ (((p.set i ⟨e.predelay, b2, e.postdelay, e.func, e.args,
        e.kwargs⟩).isEmpty || s.all_finished) = true) := by
      simp [ha, hp2]
    unfold update _update
    rw [if_neg hg1, if_neg hg2, phaseFirst_of_ne hne, phaseFirst_of_ne hne]
    dsimp only
    have hcnd : ∀ q : List Event, phaseCond q (phasePre clock s)
        = some (phasePre clock s) := by
      intro q
      unfold phaseCond
      rw [(phasePre_proj clock s).2.2.1, hcm]
      simp
    rw [hcnd, hcnd]
    dsimp only
    have hcmet : phaseCondMet clock (phasePre clock s) = phasePre clock s := by
      unfold phaseCondMet
      rw [(phasePre_proj clock s).2.2.1, hcm]
      simp
    rw [hcmet]
    -- both sides are now phasePost on the same state with the two lists
    have hpostEq : phasePost f clock
        (p.set i ⟨e.predelay, b2, e.postdelay, e.func, e.args, e.kwargs⟩)
        (phasePre clock s) = phasePost f clock p (phasePre clock s) := by
      set q := p.set i ⟨e.predelay, b2, e.postdelay, e.func, e.args, e.kwargs⟩ with hqdef
      set u := phasePre clock s with hudef
      have he2 : u.event_num = s.event_num := (phasePre_proj clock s).1
      have hupy : pyIndex p u.event_num = some e := by
        rw [he2]
        exact hpy
      have hupy2 : pyIndex q u.event_num
          = some ⟨e.predelay, b2, e.postdelay, e.func, e.args, e.kwargs⟩ := by
        rw [he2]
        exact hpy2
      have hunext : pyIndex q (u.event_num + 1) = pyIndex p (u.event_num + 1) := by
        rw [he2]
        exact hsame
      unfold phasePost
      by_cases hb : (u.predelay_finished && u.condition_met && !u.postdelay_finished) = true
      · dsimp only [readNow]
        simp only [hb, if_true]
        by_cases ht2 : u.postdelay ≤ clock u.tick - u.start_time
        · rw [if_pos ht2, if_pos ht2]
          have hA : _get_args_kwargs q
              { u with tick := u.tick + 1, postdelay_finished := true }
              = some (e.args, e.kwargs) := by
            unfold _get_args_kwargs
            rw [show ({ u with tick := u.tick + 1, postdelay_finished := true }
              : SchedState).event_num = u.event_num from rfl, hupy2]
            rfl
          have hB : _get_args_kwargs p
              { u with tick := u.tick + 1, postdelay_finished := true }
              = some (e.args, e.kwargs) := by
            unfold _get_args_kwargs
            rw [show ({ u with tick := u.tick + 1, postdelay_finished := true }
              : SchedState).event_num = u.event_num from rfl, hupy]
            rfl
          rw [hA, hB]
          dsimp only
          have hC : _get_next q
              { u with
                tick := u.tick + 2
                start_time := clock (u.tick + 1)
                predelay_finished := false
                postdelay_finished := false
                condition_met := false }
              = _get_next p
              { u with
                tick := u.tick + 2
                start_time := clock (u.tick + 1)
                predelay_finished := false
                postdelay_finished := false
                condition_met := false } := by
            unfold _get_next
            dsimp only
            rw [hunext, hlen]
          rw [hC]
        · rw [if_neg ht2, if_neg ht2]
      · dsimp only [readNow]
        simp only [hb]
        rfl
    rw [hpostEq]

/- ### Zero-delay immediacy -/

/-- An event with zero predelay and postdelay whose condition is
supplied true, current and unprocessed at the start of a call, has its
callback invoked within that same call (monotone clock, no failing
callback, and a well-formed continuation). -/
theorem zero_delay_fires {f : Call → Bool} {clock : Nat → Int}
    {p : List Event} {s : SchedState} {e : Event}
    (hMono : ∀ a b2 : Nat, a ≤ b2 → clock a ≤ clock b2)
    (hFails : ∀ c, f c = false)
    (ha : s.all_finished = false) (hpf : s.predelay_finished = false)
    (hcm : s.condition_met = false) (hpo : s.postdelay_finished = false)
    (hpy : pyIndex p (if s.event_num = -1 then 0 else s.event_num) = some e)
    (hepre : e.predelay = 0) (hepost : e.postdelay = 0)
    (hecond : e.condition = true)
    (hstored : s.event_num ≠ -1 → s.predelay = 0 ∧ s.postdelay = 0 ∧
      s.start_time ≤ clock s.tick)
    (hnext : if s.event_num = -1
      then ((0 : Int) = (p.length : Int) - 1 ∨ (pyIndex p 1).isSome = true)
      else (s.is_last = true ∨ (pyIndex p (s.event_num + 1)).isSome = true)) :
    ∃ cc, StepResult.invOf (update f clock p s) = some cc ∧
      StepResult.retBool (update f clock p s) = some false ∧
      cc.idx = (if s.event_num = -1 then 0 else s.event_num) ∧
      cc.args = e.args ∧ cc.kwargs = e.kwargs := by
  by_cases hne : s.event_num = -1
  · have hpy0 : pyIndex p 0 = some e := by
      rw [if_pos hne] at hpy
      exact hpy
    have hp : p ≠ [] := ne_nil_of_pyIndex hpy0
    have hpe : p.isEmpty = false := by
      rw [List.isEmpty_eq_false]
      exact hp
    rw [if_pos hne] at hnext
    have hd1 : e.predelay ≤ clock (s.tick + 1) - clock s.tick := by
      rw [hepre]
      have := hMono s.tick (s.tick + 1) (by omega)
      omega
    have hd2 : e.postdelay ≤ clock (s.tick + 1 + 1 + 1) - clock (s.tick + 1 + 1) := by
      rw [hepost]
      have := hMono (s.tick + 1 + 1) (s.tick + 1 + 1 + 1) (by omega)
      omega
    by_cases hl : (0 : Int) = (p.length : Int) - 1
    · refine ⟨⟨0, e.func, e.args, e.kwargs⟩, ?_, ?_, ?_, rfl, rfl⟩
      · simp [update, _update, phaseFirst, phasePre, phaseCond, phaseCondMet,
          phasePost, readNow, _get_next, _get_condition, _get_args_kwargs,
          StepResult.invOf, StepResult.retBool,
          hne, hpy0, hpe, ha, hpf, hcm, hpo, hecond, hd1, hd2, hFails,
          eq_true hl]
      · simp [update, _update, phaseFirst, phasePre, phaseCond, phaseCondMet,
          phasePost, readNow, _get_next, _get_condition, _get_args_kwargs,
          StepResult.invOf, StepResult.retBool,
          hne, hpy0, hpe, ha, hpf, hcm, hpo, hecond, hd1, hd2, hFails,
          eq_true hl]
      · rw [if_pos hne]
    · rcases hnext with hl2 | hnx
      · exact absurd hl2 hl
      · obtain ⟨e2, hpy1⟩ := Option.isSome_iff_exists.mp hnx
        by_cases hsl : s.is_last = true
        · refine ⟨⟨0, e.func, e.args, e.kwargs⟩, ?_, ?_, ?_, rfl, rfl⟩
          · simp [update, _update, phaseFirst, phasePre, phaseCond, phaseCondMet,
              phasePost, readNow, _get_next, _get_condition, _get_args_kwargs,
              StepResult.invOf, StepResult.retBool,
              hne, hpy0, hpe, ha, hpf, hcm, hpo, hecond, hd1, hd2, hFails,
              eq_false hl, hsl]
          · simp [update, _update, phaseFirst, phasePre, phaseCond, phaseCondMet,
              phasePost, readNow, _get_next, _get_condition, _get_args_kwargs,
              StepResult.invOf, StepResult.retBool,
              hne, hpy0, hpe, ha, hpf, hcm, hpo, hecond, hd1, hd2, hFails,
              eq_false hl, hsl]
          · rw [if_pos hne]
        · rw [Bool.not_eq_true] at hsl
          refine ⟨⟨0, e.func, e.args, e.kwargs⟩, ?_, ?_, ?_, rfl, rfl⟩
          · simp [update, _update, phaseFirst, phasePre, phaseCond, phaseCondMet,
              phasePost, readNow, _get_next, _get_condition, _get_args_kwargs,
              StepResult.invOf, StepResult.retBool,
              hne, hpy0, hpe, ha, hpf, hcm, hpo, hecond, hd1, hd2, hFails,
              eq_false hl, hsl, hpy1]
          · simp [update, _update, phaseFirst, phasePre, phaseCond, phaseCondMet,
              phasePost, readNow, _get_next, _get_condition, _get_args_kwargs,
              StepResult.invOf, StepResult.retBool,
              hne, hpy0, hpe, ha, hpf, hcm, hpo, hecond, hd1, hd2, hFails,
              eq_false hl, hsl, hpy1]
          · rw [if_pos hne]
  · have hpyc : pyIndex p s.event_num = some e := by
      rw [if_neg hne] at hpy
      exact hpy
    have hp : p ≠ [] := ne_nil_of_pyIndex hpyc
    have hpe : p.isEmpty = false := by
      rw [List.isEmpty_eq_false]
      exact hp
    rw [if_neg hne] at hnext
    obtain ⟨hsp, hspo, hsst⟩ := hstored hne
    have hd1 : s.predelay ≤ clock s.tick - s.start_time := by
      rw [hsp]
      omega
    have hd2 : s.postdelay ≤ clock (s.tick + 1 + 1) - clock (s.tick + 1) := by
      rw [hspo]
      have := hMono (s.tick + 1) (s.tick + 1 + 1) (by omega)
      omega
    rcases hnext with hsl | hnx
    · refine ⟨⟨s.event_num, s.func, e.args, e.kwargs⟩, ?_, ?_, ?_, rfl, rfl⟩
      · simp [update, _update, phaseFirst, phasePre, phaseCond, phaseCondMet,
          phasePost, readNow, _get_next, _get_condition, _get_args_kwargs,
          StepResult.invOf, StepResult.retBool,
          hne, hpyc, hpe, ha, hpf, hcm, hpo, hecond, hd1, hd2, hFails, hsl]
      · simp [update, _update, phaseFirst, phasePre, phaseCond, phaseCondMet,
          phasePost, readNow, _get_next, _get_condition, _get_args_kwargs,
          StepResult.invOf, StepResult.retBool,
          hne, hpyc, hpe, ha, hpf, hcm, hpo, hecond, hd1, hd2, hFails, hsl]
      · rw [if_neg hne]
    · obtain ⟨e2, hpy1⟩ := Option.isSome_iff_exists.mp hnx
      by_cases hsl : s.is_last = true
      · refine ⟨⟨s.event_num, s.func, e.args, e.kwargs⟩, ?_, ?_, ?_, rfl, rfl⟩
        · simp [update, _update, phaseFirst, phasePre, phaseCond, phaseCondMet,
            phasePost, readNow, _get_next, _get_condition, _get_args_kwargs,
            StepResult.invOf, StepResult.retBool,
            hne, hpyc, hpe, ha, hpf, hcm, hpo, hecond, hd1, hd2, hFails, hsl]
        · simp [update, _update, phaseFirst, phasePre, phaseCond, phaseCondMet,
            phasePost, readNow, _get_next, _get_condition, _get_args_kwargs,
            StepResult.invOf, StepResult.retBool,
            hne, hpyc, hpe, ha, hpf, hcm, hpo, hecond, hd1, hd2, hFails, hsl]
        · rw [if_neg hne]
      · rw [Bool.not_eq_true] at hsl
        refine ⟨⟨s.event_num, s.func, e.args, e.kwargs⟩, ?_, ?_, ?_, rfl, rfl⟩
        · simp [update, _update, phaseFirst, phasePre, phaseCond, phaseCondMet,
            phasePost, readNow, _get_next, _get_condition, _get_args_kwargs,
            StepResult.invOf, StepResult.retBool,
            hne, hpyc, hpe, ha, hpf, hcm, hpo, hecond, hd1, hd2, hFails,
            hsl, hpy1]
        · simp [update, _update, phaseFirst, phasePre, phaseCond, phaseCondMet,
            phasePost, readNow, _get_next, _get_condition, _get_args_kwargs,
            StepResult.invOf, StepResult.retBool,
            hne, hpyc, hpe, ha, hpf, hcm, hpo, hecond, hd1, hd2, hFails,
            hsl, hpy1]
        · rw [if_neg hne]

/- ### Concrete instances -/

/-- A single event with zero delays, a true condition, callback id 7 and
argument bundles 1 and 2. -/
def e0 : Event := ⟨0, true, 0, 7, 1, 2⟩

/-- An event whose condition is supplied false. -/
def eF : Event := ⟨0, false, 0, 8, 3, 4⟩

/-- Callbacks that never raise. -/
def f0 : Call → Bool := fun _ => false

/-- Callbacks that always raise. -/
def fAll : Call → Bool := fun _ => true

/-- A frozen clock. -/
def clock0 : Nat → Int := fun _ => 0

/-- The invocation record of `e0` as event number 0. -/
def callE0 : Call := ⟨0, 7, 1, 2⟩

/-- The state after running the single-event sequence `[e0]` to
completion in one call. -/
def doneState : SchedState := ⟨0, true, true, true, true, true, 0, 0, 0, 7, true, 4⟩

/-- The state left behind when the callback of `[e0]` raises. -/
def stuckState : SchedState := ⟨0, true, true, true, true, false, 0, 0, 0, 7, true, 4⟩

/-- A state awaiting the condition of event 0 of a one-event sequence. -/
def awaitState : SchedState := ⟨0, true, false, false, true, false, 0, 0, 0, 7, false, 2⟩

/-- A state whose event 0 has its condition met, post-delay pending. -/
def metState : SchedState := ⟨0, true, false, true, true, false, 0, 0, 0, 7, true, 3⟩

/- ### Consecutive-index facts -/

theorem consecFromB_ge {k : Int} {cs : List Call}
    (h : consecFromB k cs = true) : ∀ c ∈ cs, k ≤ c.idx := by
  induction cs generalizing k with
  | nil =>
      intro c hc
      cases hc
  | cons c0 cs ih =>
      unfold consecFromB at h
      rw [Bool.and_eq_true, decide_eq_true_iff] at h
      intro c hc
      rcases List.mem_cons.mp hc with hc | hc
      · subst hc
        omega
      · have := ih h.2 c hc
        omega

theorem consecFromB_nodup {k : Int} {cs : List Call}
    (h : consecFromB k cs = true) : (cs.map Call.idx).Nodup := by
  induction cs generalizing k with
  | nil => simp
  | cons c0 cs ih =>
      unfold consecFromB at h
      rw [Bool.and_eq_true, decide_eq_true_iff] at h
      rw [List.map_cons, List.nodup_cons]
      constructor
      · intro hmem
        obtain ⟨c, hc, hcix⟩ := List.mem_map.mp hmem
        have := consecFromB_ge h.2 c hc
        rw [hcix, h.1] at this
        omega
      · exact ih h.2

/-- Monotonicity of the event counter under any single call. -/
theorem step_mono {f : Call → Bool} {clock : Nat → Int} {p : List Event}
    {s s1 : SchedState} {inv : Option Call} {b : Bool}
    (h : update f clock p s = StepResult.ret s1 inv b) :
    s.event_num ≤ s1.event_num := by
  cases b with
  | true =>
      obtain ⟨h1, -, -⟩ := update_ret_true h
      subst h1
      exact le_refl _
  | false =>
      obtain ⟨hp, ha, -⟩ := update_ret_false h
      rcases update_main f clock p s hp ha with ⟨-, heq⟩ | ⟨t, hmid, heq⟩
      · rw [h] at heq
        cases heq
      · rw [h] at heq
        have hevt := hmid.evn
        rcases phasePost_cases f clock p t with
          ⟨hng, hpp⟩ | ⟨hg, htt, hpp⟩ | ⟨hg, htt, hpy, hpp⟩ |
          ⟨e, hg, htt, hpy, hfire⟩
        · rw [hpp] at heq
          unfold mapUpd at heq
          injection heq with h1 h2 h3
          subst h1
          rw [hevt]
          split <;> omega
        · rw [hpp] at heq
          unfold mapUpd at heq
          injection heq with h1 h2 h3
          subst h1
          show s.event_num ≤ t.event_num
          rw [hevt]
          split <;> omega
        · rw [hpp] at heq
          cases heq
        · rcases hfire with ⟨hf, hpp⟩ | ⟨hf, hl, hpp⟩ | ⟨hf, hl, hpy2, hpp⟩ |
            ⟨e2, hf, hl, hpy2, hpp⟩
          · rw [hpp] at heq
            cases heq
          · rw [hpp] at heq
            unfold mapUpd at heq
            injection heq with h1 h2 h3
            subst h1
            show s.event_num ≤ t.event_num
            rw [hevt]
            split <;> omega
          · rw [hpp] at heq
            cases heq
          · rw [hpp] at heq
            unfold mapUpd at heq
            injection heq with h1 h2 h3
            subst h1
            show s.event_num ≤ t.event_num + 1
            rw [hevt]
            split <;> omega

/- ### Claim C1 -/

/-- C1, counterexample: driving a fresh Scheduler with the fixed
non-empty sequence `[e0]` (zero delays, condition true), the very call
that invokes the callback of the final event returns `False`, not `True` as
the claim states; `True` only starts on the next call. -/
theorem C1_counterexample :
    update f0 clock0 [e0] initState
      = StepResult.ret doneState (some callE0) false ∧
    update f0 clock0 [e0] doneState
      = StepResult.ret doneState none true := by
  constructor <;> rfl

/-- C1, amended: for a Scheduler driven with a fixed non-empty sequence,
a call returns `True` exactly when an earlier call of the run has
already invoked the callback of the final event; the invoking call itself
still returns `False`. -/
theorem C1_amended_theorem (f : Call → Bool) (clock : Nat → Int)
    (q : List Event) (inputs : List (List Event))
    (hq : ∀ p ∈ inputs, p = q) (hne : q ≠ [])
    (s2 : SchedState) (outs : List (Bool × Option Call))
    (h : run f clock inputs initState = RunOut.ok s2 outs) :
    ∀ k, ∀ hk : k < outs.length,
      ((outs.get ⟨k, hk⟩).1 = true ↔
        ∃ pr ∈ outs.take k, ∃ cc, pr.2 = some cc ∧
          cc.idx = (q.length : Int) - 1) := by
  have hn : 1 ≤ q.length := by
    cases q with
    | nil => exact absurd rfl hne
    | cons a l => simp
  have hlen : ∀ p ∈ inputs, p.length = q.length := by
    intro p hp
    rw [hq p hp]
  have hmain := (run_inv hn (initState_Inv hn) hlen).2 s2 outs h
  intro k hk
  rw [hmain k hk]
  constructor
  · intro hq2
    rcases hq2 with hq2 | hq2
    · rw [show initState.all_finished = false from rfl] at hq2
      cases hq2
    · exact hq2
  · intro hq2
    exact Or.inr hq2

/-- C1, witness: the amended claim evaluated on the two-call run of
`[e0]`: the first (invoking) call returns `False`, the second `True`. -/
theorem C1_amended_witness :
    ((([(false, some callE0), (true, none)] :
        List (Bool × Option Call)).get ⟨0, by decide⟩).1 = true ↔
      ∃ pr ∈ ([(false, some callE0), (true, none)] :
          List (Bool × Option Call)).take 0,
        ∃ cc, pr.2 = some cc ∧
          cc.idx = (([e0] : List Event).length : Int) - 1) ∧
    ((([(false, some callE0), (true, none)] :
        List (Bool × Option Call)).get ⟨1, by decide⟩).1 = true ↔
      ∃ pr ∈ ([(false, some callE0), (true, none)] :
          List (Bool × Option Call)).take 1,
        ∃ cc, pr.2 = some cc ∧
          cc.idx = (([e0] : List Event).length : Int) - 1) :=
  ⟨C1_amended_theorem f0 clock0 [e0] [[e0], [e0]] (by decide) (by decide)
      doneState [(false, some callE0), (true, none)] (by rfl) 0 (by decide),
   C1_amended_theorem f0 clock0 [e0] [[e0], [e0]] (by decide) (by decide)
      doneState [(false, some callE0), (true, none)] (by rfl) 1 (by decide)⟩

/- ### Claim C2 -/

/-- C2, counterexample: when the callback of `[e0]` raises, the state is
left with `_postdelay_finished` already set (it is assigned at line 122,
before the invocation at line 125), so re-calling `update` — now with a
callback that would succeed — does not attempt the invocation again: it
returns `False`, invokes nothing and changes nothing. -/
theorem C2_counterexample :
    update fAll clock0 [e0] initState = StepResult.raised stuckState callE0 ∧
    update f0 clock0 [e0] stuckState = StepResult.ret stuckState none false := by
  constructor <;> rfl

/-- C2, amended: an exception from a callback propagates uncaught with
the state exactly as at the moment of invocation — which already has
`_postdelay_finished = True` — so re-calling `update` does not retry the
event: every later non-empty call returns `False` with no invocation and
no state change, and the final event is never completed. -/
theorem C2_amended_theorem (f : Call → Bool) (clock : Nat → Int)
    (p : List Event) (s s1 : SchedState) (cc : Call)
    (h : update f clock p s = StepResult.raised s1 cc) :
    s1.postdelay_finished = true ∧ s1.all_finished = false ∧
      ∀ f2 clock2 p2, p2 ≠ [] →
        update f2 clock2 p2 s1 = StepResult.ret s1 none false := by
  obtain ⟨hpf, hcm, hpo, ha, hne⟩ := raised_state h
  exact ⟨hpo, ha, fun f2 clock2 p2 hp2 =>
    stuck_step hpf hcm hpo ha hne f2 clock2 p2 hp2⟩

/-- C2, witness: the amended claim evaluated on the raising run of
`[e0]`. -/
theorem C2_amended_witness :
    stuckState.postdelay_finished = true ∧ stuckState.all_finished = false ∧
      ∀ f2 clock2 p2, p2 ≠ [] →
        update f2 clock2 p2 stuckState = StepResult.ret stuckState none false :=
  C2_amended_theorem fAll clock0 [e0] initState stuckState callE0 (by rfl)

/- ### Claim C3 -/

/-- C3, counterexample: a call with an empty sequence returns `True` on
a fresh Scheduler, yet the subsequent call with a non-empty sequence
returns `False` and invokes a callback — so "once `True`, every
subsequent call with any input returns `True` with no side effects" is
false as stated. -/
theorem C3_counterexample :
    run f0 clock0 [[], [e0]] initState
      = RunOut.ok doneState [(true, none), (false, some callE0)] := by
  rfl

/-- C3, amended: once a call with a NON-EMPTY sequence has returned
`True` (which only happens after everything finished), every subsequent
call — with any callbacks, clock and inputs — returns `True`, invokes
nothing and leaves the state unchanged. -/
theorem C3_amended_theorem (f : Call → Bool) (clock : Nat → Int)
    (p : List Event) (s s1 : SchedState) (inv : Option Call)
    (h : update f clock p s = StepResult.ret s1 inv true) (hp : p ≠ []) :
    inv = none ∧ s1 = s ∧
      ∀ f2 clock2 inputs, run f2 clock2 inputs s1
        = RunOut.ok s1 (List.replicate inputs.length (true, none)) := by
  obtain ⟨h1, h2, h3⟩ := update_ret_true h
  have ha : s.all_finished = true := by
    rcases h3 with h3 | h3
    · exact absurd h3 hp
    · exact h3
  refine ⟨h2, h1, ?_⟩
  intro f2 clock2 inputs
  rw [h1]
  induction inputs with
  | nil => rfl
  | cons p2 rest ih =>
      unfold run
      rw [update_finished f2 clock2 p2 s ha]
      dsimp only
      rw [ih]
      dsimp only
      rw [List.length_cons, List.replicate_succ]

/-- C3, witness: the amended claim evaluated at the finished state of
the `[e0]` run; the subsequent three calls all return `True` with no
side effects. -/
theorem C3_amended_witness :
    (none : Option Call) = none ∧ doneState = doneState ∧
      ∀ f2 clock2 inputs, run f2 clock2 inputs doneState
        = RunOut.ok doneState (List.replicate inputs.length (true, none)) :=
  C3_amended_theorem f0 clock0 [e0] doneState doneState none (by rfl) (by decide)

/- ### Claim C4 -/

/-- C4: in every run, the callback of each event is invoked at most once
(the invocation indices are distinct), a single call invokes at most
one callback (at most one invocation per completed call), an event
whose condition is supplied false on every call is never invoked no
matter the clock, and — "only after its delays have elapsed" — under a
frozen clock an event carrying a positive predelay or postdelay is
never invoked. -/
theorem C4_theorem (f : Call → Bool) (clock : Nat → Int)
    (inputs : List (List Event)) (s2 : SchedState)
    (outs : List (Bool × Option Call))
    (h : run f clock inputs initState = RunOut.ok s2 outs) :
    ((outs.filterMap Prod.snd).map Call.idx).Nodup ∧
    (outs.filterMap Prod.snd).length ≤ outs.length ∧
    (∀ j : Int,
      (∀ p ∈ inputs, ∀ e, pyIndex p j = some e → e.condition = false) →
      ∀ cc ∈ outs.filterMap Prod.snd, cc.idx ≠ j) ∧
    (∀ T j : Int, 0 ≤ j → (∀ x, clock x = T) →
      (∀ p ∈ inputs, ∀ e, pyIndex p j = some e →
        0 < e.predelay ∨ 0 < e.postdelay) →
      ∀ cc ∈ outs.filterMap Prod.snd, cc.idx ≠ j) := by
  refine ⟨?_, ?_, ?_, ?_⟩
  · have hc := (run_consec initState_InvBase h).1
    rw [show curIdx initState = 0 from rfl] at hc
    exact consecFromB_nodup hc
  · exact List.length_filterMap_le _ _
  · intro j hj
    exact run_gateC ⟨fun hq => rfl, fun hq => rfl⟩ hj h
  · intro T j hj0 hT hj
    refine run_gateD hT hj0 ⟨?_, ?_, ?_, ?_⟩ hj h
    · show (-1 : Int) ≤ -1
      omega
    · intro hq
      exact absurd rfl hq
    · intro hq
      rfl
    · intro hq
      rw [show initState.event_num = -1 from rfl] at hq
      omega

/-- C4, witness: the guarantees evaluated on the two-call `[e0]` run. -/
theorem C4_witness :
    ((([(false, some callE0), (true, none)] :
        List (Bool × Option Call)).filterMap Prod.snd).map Call.idx).Nodup ∧
    (([(false, some callE0), (true, none)] :
        List (Bool × Option Call)).filterMap Prod.snd).length ≤
      ([(false, some callE0), (true, none)] :
        List (Bool × Option Call)).length ∧
    (∀ j : Int,
      (∀ p ∈ [[e0], [e0]], ∀ e, pyIndex p j = some e → e.condition = false) →
      ∀ cc ∈ ([(false, some callE0), (true, none)] :
        List (Bool × Option Call)).filterMap Prod.snd, cc.idx ≠ j) ∧
    (∀ T j : Int, 0 ≤ j → (∀ x, clock0 x = T) →
      (∀ p ∈ [[e0], [e0]], ∀ e, pyIndex p j = some e →
        0 < e.predelay ∨ 0 < e.postdelay) →
      ∀ cc ∈ ([(false, some callE0), (true, none)] :
        List (Bool × Option Call)).filterMap Prod.snd, cc.idx ≠ j) :=
  C4_theorem f0 clock0 [[e0], [e0]] doneState
    [(false, some callE0), (true, none)] (by rfl)

/- ### Claim C5 -/

/-- C5: an event with `predelay = 0`, `postdelay = 0` and condition
supplied true, current and still unprocessed at the start of a call,
has its callback invoked within that same call, with the freshest
arguments, under any monotone clock (no additional elapsed time is
needed: even a frozen clock satisfies the hypotheses). -/
theorem C5_theorem (f : Call → Bool) (clock : Nat → Int)
    (p : List Event) (s : SchedState) (e : Event)
    (hMono : ∀ a b2 : Nat, a ≤ b2 → clock a ≤ clock b2)
    (hFails : ∀ c, f c = false)
    (ha : s.all_finished = false) (hpf : s.predelay_finished = false)
    (hcm : s.condition_met = false) (hpo : s.postdelay_finished = false)
    (hpy : pyIndex p (if s.event_num = -1 then 0 else s.event_num) = some e)
    (hepre : e.predelay = 0) (hepost : e.postdelay = 0)
    (hecond : e.condition = true)
    (hstored : s.event_num ≠ -1 → s.predelay = 0 ∧ s.postdelay = 0 ∧
      s.start_time ≤ clock s.tick)
    (hnext : if s.event_num = -1
      then ((0 : Int) = (p.length : Int) - 1 ∨ (pyIndex p 1).isSome = true)
      else (s.is_last = true ∨ (pyIndex p (s.event_num + 1)).isSome = true)) :
    ∃ cc, StepResult.invOf (update f clock p s) = some cc ∧
      StepResult.retBool (update f clock p s) = some false ∧
      cc.idx = (if s.event_num = -1 then 0 else s.event_num) ∧
      cc.args = e.args ∧ cc.kwargs = e.kwargs :=
  zero_delay_fires hMono hFails ha hpf hcm hpo hpy hepre hepost hecond
    hstored hnext

/-- C5, witness: the first call on a fresh Scheduler with `[e0]` under
the frozen clock invokes the callback of `e0` immediately. -/
theorem C5_witness :
    ∃ cc, StepResult.invOf (update f0 clock0 [e0] initState) = some cc ∧
      StepResult.retBool (update f0 clock0 [e0] initState) = some false ∧
      cc.idx = (if initState.event_num = -1 then 0 else initState.event_num) ∧
      cc.args = e0.args ∧ cc.kwargs = e0.kwargs :=
  C5_theorem f0 clock0 [e0] initState e0
    (fun a b2 h2 => le_refl 0) (fun c => rfl) rfl rfl rfl rfl (by decide)
    rfl rfl rfl (fun h2 => absurd rfl h2) (by decide)

/- ### Claim C6 -/

/-- C6: while the predelay has elapsed and the condition has not been
observed true, the condition is re-read from the freshly supplied
sequence — the cached value does not matter and a freshly supplied
false value latches nothing; once the condition has been observed true
for the current event, the value supplied for it in later calls is
never read again, so later false values cannot un-latch it. -/
theorem C6_theorem :
    (∀ (f : Call → Bool) (clock : Nat → Int) (p : List Event)
      (s : SchedState) (x y : Bool), s.predelay_finished = true →
      s.condition_met = false → s.event_num ≠ -1 → p ≠ [] →
      s.all_finished = false →
      update f clock p { s with condition := x }
        = update f clock p { s with condition := y }) ∧
    (∀ (f : Call → Bool) (clock : Nat → Int) (p : List Event)
      (s : SchedState) (e : Event), s.predelay_finished = true →
      s.condition_met = false → s.event_num ≠ -1 → s.all_finished = false →
      pyIndex p s.event_num = some e → e.condition = false →
      update f clock p s
        = StepResult.ret { s with condition := false } none false) ∧
    (∀ (f : Call → Bool) (clock : Nat → Int) (p : List Event)
      (s : SchedState) (i : Nat) (e : Event) (b2 : Bool),
      s.condition_met = true → s.event_num = (i : Int) →
      pyIndex p s.event_num = some e →
      update f clock p s = update f clock
        (p.set i ⟨e.predelay, b2, e.postdelay, e.func, e.args, e.kwargs⟩) s) := by
  refine ⟨?_, ?_, ?_⟩
  · intro f clock p s x y hpf hcm hne hp ha
    exact cond_fresh hpf hcm hne hp ha x y
  · intro f clock p s e hpf hcm hne ha hpy hec
    exact cond_false_no_latch hpf hcm hne ha hpy hec
  · intro f clock p s i e b2 hcm hie hpy
    exact cond_latched b2 hcm hie hpy

/-- C6, witness: the three guarantees evaluated on concrete awaiting
and latched states of one-event sequences. -/
theorem C6_witness :
    (update f0 clock0 [eF] { awaitState with condition := true }
      = update f0 clock0 [eF] { awaitState with condition := false }) ∧
    (update f0 clock0 [eF] awaitState
      = StepResult.ret { awaitState with condition := false } none false) ∧
    (update f0 clock0 [e0] metState = update f0 clock0
      ([e0].set 0 ⟨e0.predelay, false, e0.postdelay, e0.func, e0.args,
        e0.kwargs⟩) metState) :=
  ⟨C6_theorem.1 f0 clock0 [eF] awaitState true false rfl rfl (by decide)
      (by decide) rfl,
   C6_theorem.2.1 f0 clock0 [eF] awaitState eF rfl rfl (by decide) rfl
      (by decide) rfl,
   C6_theorem.2.2 f0 clock0 [e0] metState 0 e0 false rfl (by decide)
      (by decide)⟩

/- ### Claim C7 -/

/-- C7: the argument bundles passed to an invoked callback are exactly
the ones supplied for that event in the call that triggers the
invocation. -/
theorem C7_theorem (f : Call → Bool) (clock : Nat → Int) (p : List Event)
    (s s1 : SchedState) (cc : Call) (b : Bool)
    (h : update f clock p s = StepResult.ret s1 (some cc) b) :
    ∃ e, pyIndex p cc.idx = some e ∧ cc.args = e.args ∧ cc.kwargs = e.kwargs :=
  invoked_args h

/-- C7, witness: evaluated on the invoking call of the `[e0]` run. -/
theorem C7_witness :
    ∃ e, pyIndex [e0] callE0.idx = some e ∧ callE0.args = e.args ∧
      callE0.kwargs = e.kwargs :=
  C7_theorem f0 clock0 [e0] initState doneState callE0 false (by rfl)

/- ### Claim C8 -/

/-- C8: a call with an empty sequence returns `True` immediately,
invokes nothing and changes nothing — immediate completion, not an
error. -/
theorem C8_theorem (f : Call → Bool) (clock : Nat → Int) (s : SchedState) :
    update f clock [] s = StepResult.ret s none true :=
  update_empty f clock s

/- ### Claim C9 -/

/-- C9: the event counter is monotonically non-decreasing under every
call, and over any run from a fresh Scheduler the invocations carry the
consecutive event numbers 0, 1, 2, … — so callback `i` is never invoked
before callback `i-1`. -/
theorem C9_theorem :
    (∀ (f : Call → Bool) (clock : Nat → Int) (p : List Event)
      (s s1 : SchedState) (inv : Option Call) (b : Bool),
      update f clock p s = StepResult.ret s1 inv b →
      s.event_num ≤ s1.event_num) ∧
    (∀ (f : Call → Bool) (clock : Nat → Int) (inputs : List (List Event))
      (s2 : SchedState) (outs : List (Bool × Option Call)),
      run f clock inputs initState = RunOut.ok s2 outs →
      consecFromB 0 (outs.filterMap Prod.snd) = true) := by
  constructor
  · intro f clock p s s1 inv b h
    exact step_mono h
  · intro f clock inputs s2 outs h
    have hc := (run_consec initState_InvBase h).1
    rw [show curIdx initState = 0 from rfl] at hc
    exact hc

/-- C9, witness: evaluated on the two-call `[e0]` run. -/
theorem C9_witness :
    initState.event_num ≤ doneState.event_num ∧
    consecFromB 0 (([(false, some callE0), (true, none)] :
      List (Bool × Option Call)).filterMap Prod.snd) = true :=
  ⟨C9_theorem.1 f0 clock0 [e0] initState doneState (some callE0) false (by rfl),
   C9_theorem.2 f0 clock0 [[e0], [e0]] doneState
     [(false, some callE0), (true, none)] (by rfl)⟩

/- ### Claim C10 -/

/-- C10: when every call supplies the same number `n ≥ 1` of events, no
`IndexError` ever escapes `update` over a whole run from a fresh
Scheduler — the internal event index stays within range at every list
access; the only exceptions that can escape are those a user callback
raises. -/
theorem C10_theorem (f : Call → Bool) (clock : Nat → Int) (n : Nat)
    (inputs : List (List Event)) (hn : 1 ≤ n)
    (hlen : ∀ p ∈ inputs, p.length = n) :
    ∀ outs, run f clock inputs initState ≠ RunOut.ixError outs :=
  (run_inv hn (initState_Inv hn) hlen).1

/-- C10, witness: evaluated on the two-call `[e0]` run. -/
theorem C10_witness :
    run f0 clock0 [[e0], [e0]] initState ≠ RunOut.ixError [] :=
  C10_theorem f0 clock0 1 [[e0], [e0]] (by omega) (by decide) []

end Scheduler
